import Mathlib

/-!
Shallow embedding of the core of `pv_blender_cod` (files `import_xmodel.py` and
`shared.py`): the geometry reconciliation performed by `load` for each sub-mesh,
the material-usage compaction loop, the skeleton attachment selection, the
armature join cleanup (`join_armatures` / `reassign_children`), and the warning
summary dialog (`show_warnings` / `PV_OT_message_list_popup.draw`).

Machine conventions: Python floats are modelled as rationals (no rounding is
relevant to any claim), Python lists as Lean lists, and the bmesh host object
as an explicit state record.  Python `for x in xs` loops that mutate `xs`
while iterating are modelled faithfully by an explicit fetch index that is
incremented once per iteration and is not adjusted when elements are removed.
-/

namespace PvBlenderCod

/-! ## Data model: the PyCoD exchange structures handed to `load` -/

abbrev Vec3 := ℚ × ℚ × ℚ
abbrev Vec2 := ℚ × ℚ
abbrev Col4 := ℚ × ℚ × ℚ × ℚ

/-- One corner of a `Face`: a vertex reference plus per-corner attributes
(`index.vertex`, `index.normal`, `index.uv`, `index.color`). -/
structure FaceIndex where
  vertex : Nat
  normal : Vec3
  uv : Vec2
  color : Col4
deriving DecidableEq

/-- A triangle of the exchange format: `face.indices` (three corners, fields
`i0`, `i1`, `i2` are `indices[0]`, `indices[1]`, `indices[2]`) and
`face.material_id`. -/
structure Face where
  i0 : FaceIndex
  i1 : FaceIndex
  i2 : FaceIndex
  material_id : Nat
deriving DecidableEq

/-- A vertex of the exchange format: `vert.offset` and `vert.weights`. -/
structure Vert where
  offset : Vec3
  weights : List (Nat × ℚ)
deriving DecidableEq

/-- A sub-mesh: `sub_mesh.verts` and `sub_mesh.faces`. -/
structure SubMesh where
  verts : List Vert
  faces : List Face
deriving DecidableEq

/-- The winding-order fix at the top of the face loop of `load`:
`tmp = face.indices[2]; face.indices[2] = face.indices[1];
face.indices[1] = tmp` swaps the 2nd and 3rd corner in place. -/
def swapWinding (f : Face) : Face :=
  { f with i1 := f.i2, i2 := f.i1 }

/-- The three vertex indices of a face, in corner order. -/
def triOf (f : Face) : Nat × Nat × Nat :=
  (f.i0.vertex, f.i1.vertex, f.i2.vertex)

/-- The three vertex indices as a list (for order-insensitive comparison). -/
def triList (t : Nat × Nat × Nat) : List Nat :=
  [t.1, t.2.1, t.2.2]

/-- Pairwise distinctness of the three vertex indices of a triple. -/
def distinct3 (t : Nat × Nat × Nat) : Bool :=
  decide (t.1 ≠ t.2.1) && decide (t.1 ≠ t.2.2) && decide (t.2.1 ≠ t.2.2)

/-- Modelled from the spec: `Face.isValid` lives in the vendored PyCoD
package, which is not under `src/`.  Per the spec a face is valid exactly
when its three vertex indices form a real triangle, i.e. no two of them are
identical ("degenerate, e.g. two identical indices"). -/
def faceIsValid (f : Face) : Bool :=
  distinct3 (triOf f)

/-- The corners of a face in corner order (`face.indices`). -/
def cornersOf (f : Face) : List FaceIndex :=
  [f.i0, f.i1, f.i2]

/-! ## The bmesh host state for one sub-mesh -/

/-- A triangle of the host bmesh: its three vertex instances (indices into
the bmesh vertex table) and its `material_index`. -/
structure BMFace where
  tri : Nat × Nat × Nat
  material_index : Nat
deriving DecidableEq

/-- `bm.faces` already contains a face made of exactly the same three
vertex instances, in any order (the condition under which `bm.faces.new`
raises `ValueError` for a non-degenerate triple). -/
def triExists (faces : List BMFace) (t : Nat × Nat × Nat) : Bool :=
  faces.any (fun g => List.isPerm (triList g.tri) (triList t))

/-- `bm.faces.new` succeeds iff the three vertex instances are pairwise
distinct and no face over the same three instances exists yet. -/
def facesNewOk (faces : List BMFace) (t : Nat × Nat × Nat) : Bool :=
  distinct3 t && !(triExists faces t)

/-- Per-loop data recorded by `setup_tri`: the corner's normal (pushed onto
`loop_normals`), the V-flipped UV written into the UV layer, and the corner
color when the vertex-color layer exists. -/
structure LoopData where
  normal : Vec3
  uv : Vec2
  color : Option Col4
deriving DecidableEq

/-- The loop record `setup_tri` produces for one corner: the normal is taken
unchanged, the UV is corrected by `uv.y = 1.0 - uv.y` (U unchanged), and the
color is stored only when `use_vertex_colors` is set. -/
def loopOfCorner (useColors : Bool) (c : FaceIndex) : LoopData :=
  { normal := c.normal
    uv := (c.uv.1, 1 - c.uv.2)
    color := if useColors then some c.color else none }

/-- `material_usage_counts[material_index] += 1`. -/
def bumpCount (counts : List Nat) (i : Nat) : List Nat :=
  counts.set i (counts.getD i 0 + 1)

/-- The mutable per-sub-mesh state of the face loop of `load`: the growing
bmesh face table, the parallel loop-attribute buffer, `used_faces`,
`material_usage_counts`, `dup_faces`, `dup_verts`, `dup_verts_mapping`,
`unused_faces`, and the faces that survive in `sub_mesh.faces` after the
removal loop (`keptFaces`). -/
structure P1State where
  bmFaces : List BMFace
  loops : List LoopData
  usedFaces : List Face
  matCounts : List Nat
  dupFaces : List Face
  dupVerts : List Vert
  dupMap : List (Option Nat)
  unusedFaces : List Face
  keptFaces : List Face
deriving DecidableEq

/-- `setup_tri(f)`: assign the material, bump its usage counter, and record
the three corners' loop data (normal, V-flipped UV, optional color) in
corner order, then append the face to `used_faces`. -/
def setupTri (useColors : Bool) (st : P1State) (f : Face) : P1State :=
  { st with
    matCounts := bumpCount st.matCounts f.material_id
    loops := st.loops ++ (cornersOf f).map (loopOfCorner useColors)
    usedFaces := st.usedFaces ++ [f] }

/-- The default vertex used when indexing `sub_mesh.verts` (faithful runs
never reach it: an out-of-range index would abort the Python import). -/
def defaultVert : Vert :=
  { offset := (0, 0, 0), weights := [] }

/-- The duplicate-vertex allocation inside the deferred-face branch: on a
cache miss (`dup_verts_mapping[vert] is None`) allocate the next duplicate
index `len(dup_verts) + vert_count`, record it in the mapping and push the
original vertex onto `dup_verts`; on a hit return the cached index. -/
def allocDup (verts : List Vert) (st : P1State) (v : Nat) : P1State × Nat :=
  match st.dupMap.getD v none with
  | some d => (st, d)
  | none =>
    let d := verts.length + st.dupVerts.length
    ({ st with
        dupMap := st.dupMap.set v (some d)
        dupVerts := st.dupVerts ++ [verts.getD v defaultVert] }, d)

/-- Rewrite the three corners of a deferred face to duplicate-vertex
indices (`index.vertex = dup_verts_mapping[vert]`), corner by corner. -/
def deferFace (verts : List Vert) (st : P1State) (f : Face) : P1State × Face :=
  let r0 := allocDup verts st f.i0.vertex
  let r1 := allocDup verts r0.1 f.i1.vertex
  let r2 := allocDup verts r1.1 f.i2.vertex
  (r2.1,
   { f with
      i0 := { f.i0 with vertex := r0.2 }
      i1 := { f.i1 with vertex := r1.2 }
      i2 := { f.i2 with vertex := r2.2 } })

/-- One iteration of the first face pass of `load`: swap the winding, try
`bm.faces.new`; on success run `setup_tri` (the face also survives in
`sub_mesh.faces`); on failure append to `unused_faces`, and unless the face
is degenerate (`face.isValid()` false, diagnostic printed) rewrite its
corners to duplicate vertices and append it to `dup_faces`.  The face object
in `unused_faces` aliases the rewritten face. -/
def p1Step (verts : List Vert) (useColors : Bool) (st : P1State) (f0 : Face) :
    P1State :=
  let f := swapWinding f0
  if facesNewOk st.bmFaces (triOf f) then
    setupTri useColors
      { st with
        bmFaces := st.bmFaces ++ [{ tri := triOf f, material_index := f.material_id }]
        keptFaces := st.keptFaces ++ [f] } f
  else if faceIsValid f = false then
    { st with unusedFaces := st.unusedFaces ++ [f] }
  else
    let r := deferFace verts st f
    { r.1 with
      dupFaces := r.1.dupFaces ++ [r.2]
      unusedFaces := r.1.unusedFaces ++ [r.2] }

/-- The initial per-sub-mesh state: empty buffers, a zero usage counter per
global material, and `dup_verts_mapping = [None] * len(sub_mesh.verts)`. -/
def p1Init (verts : List Vert) (nMats : Nat) : P1State :=
  { bmFaces := []
    loops := []
    usedFaces := []
    matCounts := List.replicate nMats 0
    dupFaces := []
    dupVerts := []
    dupMap := List.replicate verts.length none
    unusedFaces := []
    keptFaces := [] }

/-- The whole first face pass of `load` over `sub_mesh.faces`. -/
def runPass1 (useColors : Bool) (sm : SubMesh) (nMats : Nat) : P1State :=
  sm.faces.foldl (p1Step sm.verts useColors) (p1Init sm.verts nMats)

/-- One iteration of the second (duplicate-face) pass: try `bm.faces.new`
on the rewritten corners; on success run `setup_tri`, otherwise skip the
face ("Skip dups of dups"). -/
def p2Step (useColors : Bool) (st : P1State) (g : Face) : P1State :=
  if facesNewOk st.bmFaces (triOf g) then
    setupTri useColors
      { st with
        bmFaces := st.bmFaces ++ [{ tri := triOf g, material_index := g.material_id }] } g
  else st

/-- `Vector(vert.offset) * target_scale`. -/
def scaleVert (s : ℚ) (v : Vert) : Vec3 :=
  (v.offset.1 * s, v.offset.2.1 * s, v.offset.2.2 * s)

/-- The geometry produced for one sub-mesh: the bmesh vertex table and the
final loop state. -/
structure BuildResult where
  bmVerts : List Vec3
  final : P1State
deriving DecidableEq

/-- The geometry-reconciliation part of `load` for one sub-mesh: add the
scaled original vertices, run the first face pass, and, only when
`use_dup_tris` is set, add the scaled duplicate vertices and replay the
deferred faces in a second pass. -/
def loadSubMesh (use_dup_tris useColors : Bool) (scale : ℚ) (sm : SubMesh)
    (nMats : Nat) : BuildResult :=
  let s1 := runPass1 useColors sm nMats
  if use_dup_tris then
    { bmVerts := sm.verts.map (scaleVert scale) ++ s1.dupVerts.map (scaleVert scale)
      final := s1.dupFaces.foldl (p2Step useColors) s1 }
  else
    { bmVerts := sm.verts.map (scaleVert scale)
      final := s1 }

/-! ## Material compaction: the slot-removal loop after `bm.to_mesh(mesh)` -/

/-- `mesh.materials.pop(index=mi)` renumbers the polygons: every triangle
material index above the removed slot is shifted down by one. -/
def popRemap {β : Type} (tris : List (β × Nat)) (mi : Nat) : List (β × Nat) :=
  tris.map (fun t => if mi < t.2 then (t.1, t.2 - 1) else t)

/-- The compaction loop of `load`: `for material in mesh.materials:` fetches
the element at the iterator position `p` of the *current* list (the iterator
advances once per iteration and is not compensated when a slot is popped);
the body tracks `material_index` (`mi`) and `material_usage_index` (`ui`)
manually and pops slot `mi` whenever `material_usage_counts[ui] == 0`. -/
def compactLoop {α β : Type} (mats : List α) (counts : List Nat)
    (tris : List (β × Nat)) (p mi ui : Nat) : List α × List (β × Nat) :=
  if h : p < mats.length then
    if counts.getD ui 0 == 0 then
      compactLoop (mats.eraseIdx mi) counts (popRemap tris mi) (p + 1) mi (ui + 1)
    else
      compactLoop mats counts tris (p + 1) (mi + 1) (ui + 1)
  else (mats, tris)
termination_by mats.length - p
decreasing_by
  · have h1 := (List.eraseIdx_sublist mats mi).length_le
    omega
  · omega

/-- The whole compaction pass: it starts with the iterator and both manual
cursors at 0. -/
def compactMaterials {α β : Type} (mats : List α) (counts : List Nat)
    (tris : List (β × Nat)) : List α × List (β × Nat) :=
  compactLoop mats counts tris 0 0 0

/-! ## Toggle resolution and skeleton attachment in `load` -/

/-- The toggle fixups at the top of `load`: `attach_model` is cleared when
`use_armature` is off or the active object does not resolve to an armature,
and `merge_skeleton` is cleared when `attach_model` is off.  Returns the
effective `(attach_model, merge_skeleton)` pair. -/
def resolveToggles (use_armature attach_model merge_skeleton skelOldSome : Bool) :
    Bool × Bool :=
  let a1 := if use_armature = false then false else attach_model
  let a2 := if skelOldSome = false then false else a1
  let m := if !a2 then false else merge_skeleton
  (a2, m)

/-- Whether `join_armatures` runs: the merge sits inside `if use_armature:`,
then `if attach_model and skel_old is not None:`, then `if merge_skeleton:`,
with the toggles already resolved by `resolveToggles`. -/
def joinPerformed (use_armature attach_model merge_skeleton skelOldSome : Bool) :
    Bool :=
  let r := resolveToggles use_armature attach_model merge_skeleton skelOldSome
  use_armature && (r.1 && skelOldSome) && r.2

/-- What the attachment block records on the new skeleton object:
`parent_bone`, `parent_type` and `location`, plus whether the fallback
warning was printed. -/
structure AttachResult where
  parent_bone : String
  parent_type : String
  location : Vec3
  warned : Bool
deriving DecidableEq

/-- The attachment-bone selection of `load`: keyed on the name of the new
skeleton's first pose bone, with the verbatim-name lookup and first-bone
fallback against the target skeleton's bone names; every path then sets
`parent_type = 'BONE'` and `location = (0, -1, 0)`. -/
def attachToTarget (newFirstBone : String) (targetBones : List String) :
    AttachResult :=
  if newFirstBone = "j_gun" then
    { parent_bone := "tag_weapon", parent_type := "BONE",
      location := (0, -1, 0), warned := false }
  else if newFirstBone = "tag_weapon" then
    { parent_bone := "tag_weapon_right", parent_type := "BONE",
      location := (0, -1, 0), warned := false }
  else if targetBones.contains newFirstBone then
    { parent_bone := newFirstBone, parent_type := "BONE",
      location := (0, -1, 0), warned := false }
  else
    { parent_bone := targetBones.headD "", parent_type := "BONE",
      location := (0, -1, 0), warned := true }

/-! ## Warning summary dialog (`shared.py`)

Python strings are modelled as lists of characters here so that the
join/split pair of `show_warnings` and `PV_OT_message_list_popup.draw` stays
structurally computable. -/

abbrev Str := List Char

/-- `"\n".join(warning_messages)`. -/
def joinLines : List Str → Str
  | [] => []
  | [m] => m
  | m :: rest => m ++ '\x0a' :: joinLines rest

/-- `self.messages.split('\n')`. -/
def splitLines : Str → List Str
  | [] => [[]]
  | c :: cs =>
    match splitLines cs with
    | [] => [[]]
    | r :: rs => if c = '\x0a' then [] :: r :: rs else (c :: r) :: rs

/-- What `PV_OT_message_list_popup.draw` displays: the first 5 lines of the
message string and the count of the remaining lines. -/
structure WarnDialog where
  displayed : List Str
  remaining : Nat
deriving DecidableEq

/-- The draw method: `lines = self.messages.split('\n')`,
`display_lines = lines[:5]`, and `remaining = len(lines) -
len(display_lines)` (the "... + N more." label is shown iff it is
positive). -/
def popupDraw (messages : Str) : WarnDialog :=
  let lines := splitLines messages
  let display_lines := lines.take 5
  { displayed := display_lines
    remaining := lines.length - display_lines.length }

/-- `show_warnings`: return early when the accumulated list is empty;
otherwise join the messages, clear the global list, and invoke the popup.
Returns the dialog (if any) and the new value of `warning_messages`. -/
def show_warnings (warning_messages : List Str) : Option WarnDialog × List Str :=
  if warning_messages.length = 0 then (none, warning_messages)
  else (some (popupDraw (joinLines warning_messages)), [])

/-! ## Armature join cleanup (`join_armatures` and `reassign_children`)

Edit bones are modelled by name and parent name; bone names are unique in a
Blender armature, so parent pointers are represented by the parent's name. -/

/-- An edit bone of the merged armature. -/
structure EBone where
  name : String
  parent : Option String
deriving DecidableEq

/-- The collision-disambiguation tag appended by Blender's join operation. -/
def suffix001 : String := ".001"

/-- Python's `name.endswith(".001")`. -/
def endsWith001 (n : String) : Bool :=
  suffix001.data.isSuffixOf n.data

/-- The loop body of `reassign_children`: every child of `b2` is reparented
onto `b1`. -/
def reparentChildren (bs : List EBone) (b1 b2 : String) : List EBone :=
  bs.map (fun b => if b.parent == some b2 then { b with parent := some b1 } else b)

/-- `reassign_children(ebs, bone1, bone2)`: reparent the children of `bone2`
onto `bone1`, then `ebs.remove(bone2)` (removal of the first — with unique
names, the only — bone of that name). -/
def reassignChildren (bs : List EBone) (b1 b2 : String) : List EBone :=
  (reparentChildren bs b1 b2).eraseP (fun b => b.name == b2)

/-- `name in ebs` (collection membership by bone name). -/
def hasBone (bs : List EBone) (n : String) : Bool :=
  bs.any (fun b => b.name == n)

/-- The first cleanup loop of `join_armatures`: `for bone in ebs:` looks up
`ebs[bone.name + ".001"]` and, when present, runs `reassign_children`
(which removes that bone).  The iterator position `i` advances once per
iteration over the current (mutating) collection. -/
def mergeLoop1 (bs : List EBone) (i : Nat) : List EBone :=
  if h : i < bs.length then
    if hasBone bs (bs[i].name ++ suffix001) then
      mergeLoop1 (reassignChildren bs (bs[i].name) (bs[i].name ++ suffix001)) (i + 1)
    else
      mergeLoop1 bs (i + 1)
  else bs
termination_by bs.length - i
decreasing_by
  · have h1 : (reassignChildren bs (bs[i].name) (bs[i].name ++ suffix001)).length
      ≤ bs.length := by
      simpa [reassignChildren, reparentChildren] using
        (List.eraseP_sublist
          (reparentChildren bs (bs[i].name) (bs[i].name ++ suffix001))).length_le
    omega
  · omega

/-- The second cleanup loop of `join_armatures`: `for bone in ebs:` removes
the bone under the iterator when its name ends with ".001" (again the
iterator advances once per iteration and is not compensated for the
removal). -/
def mergeLoop2 (bs : List EBone) (i : Nat) : List EBone :=
  if h : i < bs.length then
    if endsWith001 bs[i].name then
      mergeLoop2 (bs.eraseIdx i) (i + 1)
    else
      mergeLoop2 bs (i + 1)
  else bs
termination_by bs.length - i
decreasing_by
  · have h1 := (List.eraseIdx_sublist bs i).length_le
    omega
  · omega

/-- `ebs[n].parent = ebs[p]`: set the parent of the first bone named `n`. -/
def setBoneParentFirst : List EBone → String → String → List EBone
  | [], _, _ => []
  | b :: bs, n, p =>
    if b.name == n then { b with parent := some p } :: bs
    else b :: setBoneParentFirst bs n p

/-- The special-case reparenting at the end of `join_armatures`. -/
def weaponReparent (bs : List EBone) : List EBone :=
  if hasBone bs "j_gun" && hasBone bs "tag_weapon" then
    setBoneParentFirst bs "j_gun" "tag_weapon"
  else if hasBone bs "tag_weapon" && hasBone bs "tag_weapon_right" then
    setBoneParentFirst bs "tag_weapon" "tag_weapon_right"
  else bs

/-- The bone-level effect of `join_armatures` on the merged edit-bone list:
both cleanup loops followed by the special-case reparenting. -/
def joinArmaturesBones (bs : List EBone) : List EBone :=
  weaponReparent (mergeLoop2 (mergeLoop1 bs 0) 0)

/-- The parent recorded for the first bone named `n`, if any bone is. -/
def parentOf (bs : List EBone) (n : String) : Option (Option String) :=
  (bs.find? (fun b => b.name == n)).map EBone.parent

/-! ### Closed-form machinery for the first cleanup loop -/

/-- `s` is the ".001"-partner of some bone among `done`. -/
def hasPartnerIn (done : List EBone) (s : EBone) : Bool :=
  done.any (fun b => (b.name ++ suffix001) == s.name)

/-- Cumulative effect on one bone's parent link of running
`reassign_children` for every base bone in `done` whose partner occurs in
`S`. -/
def fixParent (done S : List EBone) (c : EBone) : EBone :=
  match c.parent with
  | none => c
  | some p =>
    if hasBone S p then
      match done.find? (fun b => (b.name ++ suffix001) == p) with
      | some b => { c with parent := some b.name }
      | none => c
    else c

/-- The intermediate collection seen by `mergeLoop1` over `B ++ S` when the
iterator has processed the first `i` base bones. -/
def stateAt (B S : List EBone) (i : Nat) : List EBone :=
  (B.map (fixParent (B.take i) S)) ++
    ((S.filter (fun s => !(hasPartnerIn (B.take i) s))).map (fixParent (B.take i) S))

/-! ### Invariant machinery for the face passes -/

/-- Number of populated entries of `dup_verts_mapping`. -/
def countSome (m : List (Option Nat)) : Nat :=
  m.countP (fun o => o.isSome)

/-- All three vertex indices of a face are below `n` (the well-formedness a
non-aborting Python run guarantees: an out-of-range index raises at
`bm.verts[index.vertex]` and kills the import). -/
def triBound (n : Nat) (f : Face) : Prop :=
  f.i0.vertex < n ∧ f.i1.vertex < n ∧ f.i2.vertex < n

instance (n : Nat) (f : Face) : Decidable (triBound n f) :=
  inferInstanceAs (Decidable (f.i0.vertex < n ∧ f.i1.vertex < n ∧ f.i2.vertex < n))

/-- Invariant of the duplicate-vertex bookkeeping: the mapping keeps its
size, counts its populated entries in `dup_verts`, and populated entries
are exactly the fresh indices `vert_count`, ..., `vert_count +
len(dup_verts) - 1`, each used at most once. -/
structure DupInv (vc : Nat) (st : P1State) : Prop where
  map_len : st.dupMap.length = vc
  count_eq : st.dupVerts.length = countSome st.dupMap
  map_lb : ∀ v d, st.dupMap.getD v none = some d → vc ≤ d
  map_ub : ∀ v d, st.dupMap.getD v none = some d → d < vc + st.dupVerts.length
  map_inj : ∀ v w d, st.dupMap.getD v none = some d →
    st.dupMap.getD w none = some d → v = w

/-- Full invariant of the first face pass of `load` for a sub-mesh with
`vc` source vertices. -/
structure P1Inv (colors : Bool) (vc : Nat) (st : P1State) : Prop where
  dup : DupInv vc st
  dup_valid : ∀ g ∈ st.dupFaces, faceIsValid g = true
  dup_ge : ∀ g ∈ st.dupFaces, ∀ x ∈ triList (triOf g), vc ≤ x
  dup_ref : ∀ v d, st.dupMap.getD v none = some d →
    ∃ g ∈ st.dupFaces, d ∈ triList (triOf g)
  dup_in_unused : ∀ g ∈ st.dupFaces, g ∈ st.unusedFaces
  bm_valid : ∀ t ∈ st.bmFaces, distinct3 t.tri = true
  used_valid : ∀ g ∈ st.usedFaces, faceIsValid g = true
  used_lt : ∀ g ∈ st.usedFaces, ∀ x ∈ triList (triOf g), x < vc
  kept_used : st.keptFaces = st.usedFaces
  unused_shape : ∀ g ∈ st.unusedFaces, g ∈ st.dupFaces ∨ faceIsValid g = false
  loops_eq : st.loops =
    st.usedFaces.flatMap (fun g => (cornersOf g).map (loopOfCorner colors))

/-- A concrete face corner with all attributes derived from a tag (used by
concrete evaluations below). -/
def mkCorner (v : Nat) (tag : ℚ) : FaceIndex :=
  { vertex := v, normal := (0, 0, 0), uv := (tag, 0), color := (0, 0, 0, 0) }

/-- A concrete face. -/
def mkFace (a b c : Nat) (tag : ℚ) : Face :=
  { i0 := mkCorner a tag, i1 := mkCorner b tag, i2 := mkCorner c tag
    material_id := 0 }

/-- Three stacked copies of the same triangle over three vertices: the
first is inserted, the remaining two are deferred as duplicates, and in
the second pass the third is a duplicate of a duplicate. -/
def smDup : SubMesh :=
  { verts := [defaultVert, defaultVert, defaultVert]
    faces := [mkFace 0 1 2 1, mkFace 0 1 2 2, mkFace 0 1 2 3] }

/-- A small well-formed sub-mesh: four vertices, two single-sided faces
sharing an edge, and one degenerate face. -/
def smSmall : SubMesh :=
  { verts := [defaultVert, defaultVert, defaultVert, defaultVert]
    faces := [mkFace 0 1 2 1, mkFace 0 2 3 2, mkFace 1 1 3 3] }

/-! # Theorems -/

/-- Claim C10: the attach and merge toggles are not independent.  If
`use_armature` is false, or the active object does not resolve to an
armature, `attach_model` is forced to false; whenever `attach_model` is
false `merge_skeleton` is forced to false; and the skeleton join runs
exactly when `use_armature`, the original `attach_model` and
`merge_skeleton` requests, and a pre-existing target armature are all
present — otherwise the toggles are silently ignored. -/
theorem c10_toggle_dependence :
    ∀ ua am ms so : Bool,
      (resolveToggles false am ms so).1 = false ∧
      (resolveToggles ua am ms false).1 = false ∧
      (resolveToggles ua am ms so).2 = ((resolveToggles ua am ms so).1 && ms) ∧
      joinPerformed ua am ms so = (ua && am && ms && so) := by decide

/-- Claim C4 (code bug evaluation): a sub-mesh using global material slots
0 and 2 of 5.  The claim (and the code's own comment) require the
compacted material list `[0, 2]`; the loop iterates `mesh.materials` while
popping from it, so the iterator runs out after four fetches and the
trailing unused slot 4 survives: the code produces `[0, 2, 4]` (the
triangle indices are still remapped to 0 and 1). -/
theorem c4_compaction_failing_input :
    compactMaterials ([0, 1, 2, 3, 4] : List Nat) [1, 0, 1, 0, 0]
        [((10 : Nat), 0), (11, 2)] = ([0, 2, 4], [(10, 0), (11, 1)]) := by
  simp [compactMaterials, compactLoop, popRemap]

/-- Claim C2 (counterexample): with `use_dup_tris` enabled, the third
stacked copy of a triangle is deferred (it is in `dup_faces`) but is still
not inserted by the second pass — it is a duplicate of the already
replayed duplicate — refuting "the deferred faces are inserted in a second
pass if and only if use_dup_tris is enabled". -/
theorem c2_counterexample :
    ∃ g ∈ (runPass1 false smDup 1).dupFaces,
      g ∉ (loadSubMesh true false 1 smDup 1).final.usedFaces := by decide

/-- Claim C6: the attachment bone is selected in priority order — first
bone named "j_gun" attaches to "tag_weapon"; else named "tag_weapon"
attaches to "tag_weapon_right"; else a verbatim name match attaches to the
same-named bone; else the target's first bone is used with a warning — and
every path sets a parent-by-bone relation with local offset (0, -1, 0). -/
theorem c6_attach_selection (nf : String) (tb : List String) (hne : tb ≠ []) :
    (attachToTarget nf tb).parent_type = "BONE" ∧
    (attachToTarget nf tb).location = (0, -1, 0) ∧
    (nf = "j_gun" → (attachToTarget nf tb).parent_bone = "tag_weapon") ∧
    (nf ≠ "j_gun" → nf = "tag_weapon" →
      (attachToTarget nf tb).parent_bone = "tag_weapon_right") ∧
    (nf ≠ "j_gun" → nf ≠ "tag_weapon" → nf ∈ tb →
      (attachToTarget nf tb).parent_bone = nf ∧
        (attachToTarget nf tb).warned = false) ∧
    (nf ≠ "j_gun" → nf ≠ "tag_weapon" → nf ∉ tb →
      (attachToTarget nf tb).parent_bone = tb.head hne ∧
        (attachToTarget nf tb).warned = true) := by
  refine ⟨?_, ?_, ?_, ?_, ?_, ?_⟩
  · unfold attachToTarget; split_ifs <;> rfl
  · unfold attachToTarget; split_ifs <;> rfl
  · intro h; simp [attachToTarget, h]
  · intro h1 h2; simp [attachToTarget, h1, h2]
  · intro h1 h2 h3
    simp [attachToTarget, h1, h2, h3]
  · intro h1 h2 h3
    cases tb with
    | nil => exact absurd rfl hne
    | cons a t =>
      have h3a : ¬ (nf = a ∨ nf ∈ t) := by simpa using h3
      simp [attachToTarget, h1, h2, h3a]

/-- Claim C6 witness: a "j_gun"-rooted skeleton selects "tag_weapon" on a
target whose bone list is `["root"]`. -/
theorem c6_attach_selection_witness :
    (attachToTarget "j_gun" ["root"]).parent_bone = "tag_weapon" :=
  (c6_attach_selection "j_gun" ["root"] (by decide)).2.2.1 rfl

/-- Claim C8: when the warning list is non-empty, `show_warnings` shows one
dialog whose body is the first 5 lines of the joined messages plus the
count of the remaining lines, and clears the process-wide list; when the
list is empty no dialog is shown and the list is untouched. -/
theorem c8_show_warnings (msgs : List Str) :
    (msgs = [] → show_warnings msgs = (none, msgs)) ∧
    (msgs ≠ [] →
      show_warnings msgs =
        (some { displayed := (splitLines (joinLines msgs)).take 5
                remaining := (splitLines (joinLines msgs)).length -
                  ((splitLines (joinLines msgs)).take 5).length }, [])) := by
  constructor
  · intro h; subst h; rfl
  · intro h
    have hl : ¬ msgs.length = 0 := by simpa using h
    simp [show_warnings, popupDraw, hl]

/-- Claim C8 witness: seven one-character messages produce a dialog with
the first five lines and a remainder count of two, and the list is
cleared. -/
theorem c8_show_warnings_witness :
    show_warnings [['a'], ['b'], ['c'], ['d'], ['e'], ['f'], ['g']] =
      (some { displayed := [['a'], ['b'], ['c'], ['d'], ['e']], remaining := 2 },
        []) :=
  (c8_show_warnings _).2 (by decide)

end PvBlenderCod

namespace PvBlenderCod

theorem getD_set_self (l : List (Option Nat)) (v : Nat) (x : Option Nat)
    (hv : v < l.length) : (l.set v x).getD v none = x := by
  simp [List.getD, List.getElem?_set, hv]

theorem getD_set_ne (l : List (Option Nat)) (v w : Nat) (x : Option Nat)
    (h : v ≠ w) : (l.set v x).getD w none = l.getD w none := by
  simp [List.getD, List.getElem?_set, h]

theorem countSome_set_some (l : List (Option Nat)) (v d : Nat)
    (hv : v < l.length) (h : l.getD v none = none) :
    countSome (l.set v (some d)) = countSome l + 1 := by
  induction l generalizing v with
  | nil => simp at hv
  | cons a t ih =>
    cases v with
    | zero =>
      have ha : a = none := by simpa [List.getD] using h
      subst ha
      simp [countSome, List.countP_cons]
    | succ v =>
      have hv' : v < t.length := by simpa using hv
      have h' : t.getD v none = none := by simpa [List.getD] using h
      simp only [List.set_cons_succ, countSome, List.countP_cons]
      have := ih v hv' h'
      simp [countSome] at this
      omega

theorem countSome_replicate (n : Nat) :
    countSome (List.replicate n (none : Option Nat)) = 0 := by
  induction n with
  | zero => rfl
  | succ n ih =>
    simp only [List.replicate_succ, countSome, List.countP_cons] at ih ⊢
    simp [ih]

theorem getD_replicate_none (n i : Nat) :
    (List.replicate n (none : Option Nat)).getD i none = none := by
  simp [List.getD, List.getElem?_replicate]
  split <;> rfl

theorem distinct3_iff (t : Nat × Nat × Nat) :
    distinct3 t = true ↔ (t.1 ≠ t.2.1 ∧ t.1 ≠ t.2.2 ∧ t.2.1 ≠ t.2.2) := by
  simp [distinct3, Bool.and_eq_true, and_assoc]

theorem mem_triList (x : Nat) (t : Nat × Nat × Nat) :
    x ∈ triList t ↔ (x = t.1 ∨ x = t.2.1 ∨ x = t.2.2) := by
  simp [triList]

end PvBlenderCod

namespace PvBlenderCod

theorem allocDup_fields (verts : List Vert) (st : P1State) (v : Nat) :
    (allocDup verts st v).1.bmFaces = st.bmFaces ∧
    (allocDup verts st v).1.loops = st.loops ∧
    (allocDup verts st v).1.usedFaces = st.usedFaces ∧
    (allocDup verts st v).1.matCounts = st.matCounts ∧
    (allocDup verts st v).1.dupFaces = st.dupFaces ∧
    (allocDup verts st v).1.unusedFaces = st.unusedFaces ∧
    (allocDup verts st v).1.keptFaces = st.keptFaces := by
  unfold allocDup
  cases h : st.dupMap.getD v none <;> simp

theorem allocDup_main (verts : List Vert) (st : P1State) (v : Nat)
    (hv : v < verts.length) (hd : DupInv verts.length st) :
    DupInv verts.length (allocDup verts st v).1 ∧
    (allocDup verts st v).1.dupMap.getD v none = some (allocDup verts st v).2 ∧
    verts.length ≤ (allocDup verts st v).2 ∧
    (∀ w d, st.dupMap.getD w none = some d →
      (allocDup verts st v).1.dupMap.getD w none = some d) ∧
    (∀ w d, (allocDup verts st v).1.dupMap.getD w none = some d →
      st.dupMap.getD w none = some d ∨ (w = v ∧ d = (allocDup verts st v).2)) := by
  obtain ⟨hlen, hcnt, hlb, hub, hinj⟩ := hd
  unfold allocDup
  cases hm : st.dupMap.getD v none with
  | some d0 =>
    simp only
    refine ⟨⟨hlen, hcnt, hlb, hub, hinj⟩, hm, hlb v d0 hm, ?_, ?_⟩
    · intro w d h; exact h
    · intro w d h; exact Or.inl h
  | none =>
    simp only
    have hvlen : v < st.dupMap.length := by omega
    have hself : (st.dupMap.set v (some (verts.length + st.dupVerts.length))).getD v none
        = some (verts.length + st.dupVerts.length) := getD_set_self _ _ _ hvlen
    have hne : ∀ w, w ≠ v →
        (st.dupMap.set v (some (verts.length + st.dupVerts.length))).getD w none
          = st.dupMap.getD w none := by
      intro w hw
      exact getD_set_ne _ _ _ _ (fun he => hw he.symm)
    constructor
    · constructor
      · simpa using hlen
      · simp only [List.length_append, List.length_cons, List.length_nil]
        rw [countSome_set_some st.dupMap v _ hvlen hm]
        omega
      · intro w d h
        by_cases hwv : w = v
        · subst hwv; rw [hself] at h
          have hd := Option.some.inj h
          omega
        · rw [hne w hwv] at h; exact hlb w d h
      · intro w d h
        simp only [List.length_append, List.length_cons, List.length_nil]
        by_cases hwv : w = v
        · subst hwv; rw [hself] at h
          have hd := Option.some.inj h
          omega
        · rw [hne w hwv] at h
          have := hub w d h
          omega
      · intro w w2 d h1 h2
        by_cases hwv : w = v <;> by_cases hw2v : w2 = v
        · omega
        · subst hwv; rw [hself] at h1
          rw [hne w2 hw2v] at h2
          have hd2 := hub w2 d h2
          have hd := Option.some.inj h1
          omega
        · subst hw2v; rw [hself] at h2
          rw [hne w hwv] at h1
          have hd1 := hub w d h1
          have hd := Option.some.inj h2
          omega
        · rw [hne w hwv] at h1; rw [hne w2 hw2v] at h2
          exact hinj w w2 d h1 h2
    · refine ⟨hself, by omega, ?_, ?_⟩
      · intro w d h
        by_cases hwv : w = v
        · subst hwv; rw [hm] at h; cases h
        · rw [hne w hwv]; exact h
      · intro w d h
        by_cases hwv : w = v
        · subst hwv; rw [hself] at h
          exact Or.inr ⟨rfl, (Option.some.inj h).symm⟩
        · rw [hne w hwv] at h; exact Or.inl h

end PvBlenderCod

namespace PvBlenderCod

theorem deferFace_fields (verts : List Vert) (st : P1State) (f : Face) :
    (deferFace verts st f).1.bmFaces = st.bmFaces ∧
    (deferFace verts st f).1.loops = st.loops ∧
    (deferFace verts st f).1.usedFaces = st.usedFaces ∧
    (deferFace verts st f).1.matCounts = st.matCounts ∧
    (deferFace verts st f).1.dupFaces = st.dupFaces ∧
    (deferFace verts st f).1.unusedFaces = st.unusedFaces ∧
    (deferFace verts st f).1.keptFaces = st.keptFaces := by
  obtain ⟨a1, a2, a3, a4, a5, a6, a7⟩ := allocDup_fields verts st f.i0.vertex
  obtain ⟨b1, b2, b3, b4, b5, b6, b7⟩ :=
    allocDup_fields verts (allocDup verts st f.i0.vertex).1 f.i1.vertex
  obtain ⟨c1, c2, c3, c4, c5, c6, c7⟩ :=
    allocDup_fields verts (allocDup verts (allocDup verts st f.i0.vertex).1 f.i1.vertex).1
      f.i2.vertex
  unfold deferFace
  simp only
  exact ⟨c1.trans (b1.trans a1), c2.trans (b2.trans a2), c3.trans (b3.trans a3),
    c4.trans (b4.trans a4), c5.trans (b5.trans a5), c6.trans (b6.trans a6),
    c7.trans (b7.trans a7)⟩

theorem triOf_deferFace (verts : List Vert) (st : P1State) (f : Face) :
    triOf (deferFace verts st f).2 =
      ((allocDup verts st f.i0.vertex).2,
       (allocDup verts (allocDup verts st f.i0.vertex).1 f.i1.vertex).2,
       (allocDup verts (allocDup verts (allocDup verts st f.i0.vertex).1 f.i1.vertex).1
          f.i2.vertex).2) := rfl

theorem deferFace_main (verts : List Vert) (st : P1State) (f : Face)
    (hb : triBound verts.length f) (hvalid : faceIsValid f = true)
    (hd : DupInv verts.length st) :
    DupInv verts.length (deferFace verts st f).1 ∧
    faceIsValid (deferFace verts st f).2 = true ∧
    (∀ x ∈ triList (triOf (deferFace verts st f).2), verts.length ≤ x) ∧
    (∀ w d, st.dupMap.getD w none = some d →
      (deferFace verts st f).1.dupMap.getD w none = some d) ∧
    (∀ w d, (deferFace verts st f).1.dupMap.getD w none = some d →
      st.dupMap.getD w none = some d ∨ d ∈ triList (triOf (deferFace verts st f).2)) := by
  obtain ⟨hb0, hb1, hb2⟩ := hb
  obtain ⟨hv01, hv02, hv12⟩ := (distinct3_iff (triOf f)).1 hvalid
  obtain ⟨d0inv, d0self, d0lb, d0persist, d0conv⟩ := allocDup_main verts st f.i0.vertex hb0 hd
  obtain ⟨d1inv, d1self, d1lb, d1persist, d1conv⟩ :=
    allocDup_main verts (allocDup verts st f.i0.vertex).1 f.i1.vertex hb1 d0inv
  obtain ⟨d2inv, d2self, d2lb, d2persist, d2conv⟩ :=
    allocDup_main verts (allocDup verts (allocDup verts st f.i0.vertex).1 f.i1.vertex).1
      f.i2.vertex hb2 d1inv
  set s0 := allocDup verts st f.i0.vertex with hs0
  set s1 := allocDup verts s0.1 f.i1.vertex with hs1
  set s2 := allocDup verts s1.1 f.i2.vertex with hs2
  have hfin : (deferFace verts st f).1 = s2.1 := rfl
  have htri : triOf (deferFace verts st f).2 = (s0.2, s1.2, s2.2) := rfl
  -- the three allocated indices are recorded in the final mapping
  have hm0 : s2.1.dupMap.getD f.i0.vertex none = some s0.2 :=
    d2persist _ _ (d1persist _ _ d0self)
  have hm1 : s2.1.dupMap.getD f.i1.vertex none = some s1.2 := d2persist _ _ d1self
  have hm2 : s2.1.dupMap.getD f.i2.vertex none = some s2.2 := d2self
  refine ⟨by rw [hfin]; exact d2inv, ?_, ?_, ?_, ?_⟩
  · rw [faceIsValid, htri, distinct3_iff]
    refine ⟨?_, ?_, ?_⟩
    · show s0.2 ≠ s1.2
      intro he
      have hm1b : s2.1.dupMap.getD f.i1.vertex none = some s0.2 := by
        rw [he]; exact hm1
      exact hv01 (d2inv.map_inj _ _ _ hm0 hm1b)
    · show s0.2 ≠ s2.2
      intro he
      have hm2b : s2.1.dupMap.getD f.i2.vertex none = some s0.2 := by
        rw [he]; exact hm2
      exact hv02 (d2inv.map_inj _ _ _ hm0 hm2b)
    · show s1.2 ≠ s2.2
      intro he
      have hm2b : s2.1.dupMap.getD f.i2.vertex none = some s1.2 := by
        rw [he]; exact hm2
      exact hv12 (d2inv.map_inj _ _ _ hm1 hm2b)
  · intro x hx
    rw [htri, mem_triList] at hx
    rcases hx with h | h | h
    · subst h; exact d0lb
    · subst h; exact d1lb
    · subst h; exact d2lb
  · intro w d h
    exact d2persist _ _ (d1persist _ _ (d0persist _ _ h))
  · intro w d h
    rw [hfin] at h
    rcases d2conv w d h with h2 | ⟨hw, hdq⟩
    · rcases d1conv w d h2 with h1 | ⟨hw, hdq⟩
      · rcases d0conv w d h1 with h0 | ⟨hw, hdq⟩
        · exact Or.inl h0
        · right; rw [htri, mem_triList]; exact Or.inl hdq
      · right; rw [htri, mem_triList]; exact Or.inr (Or.inl hdq)
    · right; rw [htri, mem_triList]; exact Or.inr (Or.inr hdq)

end PvBlenderCod

namespace PvBlenderCod

theorem swap_triBound (n : Nat) (f : Face) (h : triBound n f) :
    triBound n (swapWinding f) :=
  ⟨h.1, h.2.2, h.2.1⟩

theorem DupInv.copy {vc : Nat} {st st2 : P1State} (h : DupInv vc st)
    (hm : st2.dupMap = st.dupMap) (hv : st2.dupVerts = st.dupVerts) :
    DupInv vc st2 := by
  refine ⟨?_, ?_, ?_, ?_, ?_⟩
  · rw [hm]; exact h.map_len
  · rw [hm, hv]; exact h.count_eq
  · intro v d hx; rw [hm] at hx; exact h.map_lb v d hx
  · intro v d hx; rw [hm] at hx; rw [hv]; exact h.map_ub v d hx
  · intro v w d h1 h2; rw [hm] at h1 h2; exact h.map_inj v w d h1 h2

theorem p1Step_inv (verts : List Vert) (colors : Bool) (st : P1State) (f0 : Face)
    (hb : triBound verts.length f0) (hinv : P1Inv colors verts.length st) :
    P1Inv colors verts.length (p1Step verts colors st f0) := by
  have hb2 : triBound verts.length (swapWinding f0) := swap_triBound _ _ hb
  unfold p1Step
  dsimp only
  split_ifs with hok hval
  · -- successful insertion: setup_tri
    have hd3 : distinct3 (triOf (swapWinding f0)) = true := by
      have h := hok
      simp only [facesNewOk, Bool.and_eq_true] at h
      exact h.1
    refine ⟨DupInv.copy hinv.dup rfl rfl, hinv.dup_valid, hinv.dup_ge, hinv.dup_ref,
      hinv.dup_in_unused, ?_, ?_, ?_, ?_, hinv.unused_shape, ?_⟩
    · intro t ht
      simp only [setupTri, List.mem_append, List.mem_singleton] at ht
      rcases ht with ht | ht
      · exact hinv.bm_valid t ht
      · subst ht; exact hd3
    · intro g hg
      simp only [setupTri, List.mem_append, List.mem_singleton] at hg
      rcases hg with hg | hg
      · exact hinv.used_valid g hg
      · subst hg; exact hd3
    · intro g hg
      simp only [setupTri, List.mem_append, List.mem_singleton] at hg
      rcases hg with hg | hg
      · exact hinv.used_lt g hg
      · subst hg
        intro x hx
        rw [mem_triList] at hx
        rcases hx with h | h | h <;> subst h
        · exact hb2.1
        · exact hb2.2.1
        · exact hb2.2.2
    · show st.keptFaces ++ [swapWinding f0] = st.usedFaces ++ [swapWinding f0]
      rw [hinv.kept_used]
    · show st.loops ++ (cornersOf (swapWinding f0)).map (loopOfCorner colors) =
        (st.usedFaces ++ [swapWinding f0]).flatMap
          (fun g => (cornersOf g).map (loopOfCorner colors))
      rw [List.flatMap_append, hinv.loops_eq]
      simp
  · -- degenerate face: only recorded as unused
    refine ⟨DupInv.copy hinv.dup rfl rfl, hinv.dup_valid, hinv.dup_ge, hinv.dup_ref, ?_,
      hinv.bm_valid, hinv.used_valid, hinv.used_lt, hinv.kept_used, ?_, hinv.loops_eq⟩
    · intro g hg
      simp only [List.mem_append, List.mem_singleton]
      exact Or.inl (hinv.dup_in_unused g hg)
    · intro g hg
      simp only [List.mem_append, List.mem_singleton] at hg
      rcases hg with hg | hg
      · exact hinv.unused_shape g hg
      · subst hg; exact Or.inr hval
  · -- deferred face
    have hvalid : faceIsValid (swapWinding f0) = true := by
      cases h : faceIsValid (swapWinding f0)
      · exact absurd h hval
      · rfl
    obtain ⟨dinv, dvalid, dge, dpersist, dconv⟩ :=
      deferFace_main verts st (swapWinding f0) hb2 hvalid hinv.dup
    obtain ⟨e1, e2, e3, e4, e5, e6, e7⟩ := deferFace_fields verts st (swapWinding f0)
    refine ⟨DupInv.copy dinv rfl rfl, ?_, ?_, ?_, ?_, ?_, ?_, ?_, ?_, ?_, ?_⟩
    · intro g hg
      simp only [List.mem_append, List.mem_singleton, e5] at hg
      rcases hg with hg | hg
      · exact hinv.dup_valid g hg
      · subst hg; exact dvalid
    · intro g hg
      simp only [List.mem_append, List.mem_singleton, e5] at hg
      rcases hg with hg | hg
      · exact hinv.dup_ge g hg
      · subst hg; exact dge
    · intro v d h
      rcases dconv v d h with h0 | h0
      · obtain ⟨g, hg, hdg⟩ := hinv.dup_ref v d h0
        refine ⟨g, ?_, hdg⟩
        simp only [List.mem_append, List.mem_singleton, e5]
        exact Or.inl hg
      · refine ⟨(deferFace verts st (swapWinding f0)).2, ?_, h0⟩
        simp
    · intro g hg
      simp only [List.mem_append, List.mem_singleton, e5, e6] at hg ⊢
      rcases hg with hg | hg
      · exact Or.inl (hinv.dup_in_unused g hg)
      · exact Or.inr hg
    · intro t ht
      rw [e1] at ht
      exact hinv.bm_valid t ht
    · intro g hg
      rw [e3] at hg
      exact hinv.used_valid g hg
    · intro g hg
      rw [e3] at hg
      exact hinv.used_lt g hg
    · show (deferFace verts st (swapWinding f0)).1.keptFaces =
        (deferFace verts st (swapWinding f0)).1.usedFaces
      rw [e7, e3, hinv.kept_used]
    · intro g hg
      simp only [List.mem_append, List.mem_singleton, e6, e5] at hg ⊢
      rcases hg with hg | hg
      · rcases hinv.unused_shape g hg with h | h
        · exact Or.inl (Or.inl h)
        · exact Or.inr h
      · exact Or.inl (Or.inr hg)
    · show (deferFace verts st (swapWinding f0)).1.loops =
        (deferFace verts st (swapWinding f0)).1.usedFaces.flatMap
          (fun g => (cornersOf g).map (loopOfCorner colors))
      rw [e2, e3, hinv.loops_eq]

theorem p1Init_inv (verts : List Vert) (colors : Bool) (n : Nat) :
    P1Inv colors verts.length (p1Init verts n) := by
  refine ⟨⟨?_, ?_, ?_, ?_, ?_⟩, ?_, ?_, ?_, ?_, ?_, ?_, ?_, ?_, ?_, ?_⟩
  · simp [p1Init]
  · show ([] : List Vert).length = countSome (List.replicate verts.length none)
    rw [countSome_replicate]
    rfl
  · intro v d h
    rw [show (p1Init verts n).dupMap = List.replicate verts.length none from rfl,
      getD_replicate_none] at h
    cases h
  · intro v d h
    rw [show (p1Init verts n).dupMap = List.replicate verts.length none from rfl,
      getD_replicate_none] at h
    cases h
  · intro v w d h
    rw [show (p1Init verts n).dupMap = List.replicate verts.length none from rfl,
      getD_replicate_none] at h
    cases h
  · intro g hg; cases hg
  · intro g hg; cases hg
  · intro v d h
    rw [show (p1Init verts n).dupMap = List.replicate verts.length none from rfl,
      getD_replicate_none] at h
    cases h
  · intro g hg; cases hg
  · intro t ht; cases ht
  · intro g hg; cases hg
  · intro g hg; cases hg
  · rfl
  · intro g hg; cases hg
  · rfl

theorem runPass1_inv (colors : Bool) (sm : SubMesh) (nm : Nat)
    (hWF : ∀ f ∈ sm.faces, triBound sm.verts.length f) :
    P1Inv colors sm.verts.length (runPass1 colors sm nm) := by
  unfold runPass1
  exact List.foldlRecOn sm.faces (p1Step sm.verts colors) (p1Init sm.verts nm)
    (p1Init_inv sm.verts colors nm)
    (fun st hst f hf => p1Step_inv sm.verts colors st f (hWF f hf) hst)

end PvBlenderCod

namespace PvBlenderCod

theorem p1Step_loops (verts : List Vert) (colors : Bool) (st : P1State) (f0 : Face)
    (h : st.loops = st.usedFaces.flatMap (fun g => (cornersOf g).map (loopOfCorner colors))) :
    (p1Step verts colors st f0).loops =
      (p1Step verts colors st f0).usedFaces.flatMap
        (fun g => (cornersOf g).map (loopOfCorner colors)) := by
  unfold p1Step
  dsimp only
  split_ifs with hok hval
  · show st.loops ++ (cornersOf (swapWinding f0)).map (loopOfCorner colors) =
      (st.usedFaces ++ [swapWinding f0]).flatMap
        (fun g => (cornersOf g).map (loopOfCorner colors))
    rw [List.flatMap_append, h]
    simp
  · exact h
  · obtain ⟨e1, e2, e3, e4, e5, e6, e7⟩ := deferFace_fields verts st (swapWinding f0)
    show (deferFace verts st (swapWinding f0)).1.loops =
      (deferFace verts st (swapWinding f0)).1.usedFaces.flatMap
        (fun g => (cornersOf g).map (loopOfCorner colors))
    rw [e2, e3]
    exact h

theorem p1_fold_loops (verts : List Vert) (colors : Bool) (l : List Face) (st : P1State)
    (h : st.loops = st.usedFaces.flatMap (fun g => (cornersOf g).map (loopOfCorner colors))) :
    (l.foldl (p1Step verts colors) st).loops =
      (l.foldl (p1Step verts colors) st).usedFaces.flatMap
        (fun g => (cornersOf g).map (loopOfCorner colors)) :=
  List.foldlRecOn l (p1Step verts colors) st h
    (fun st hst f _ => p1Step_loops verts colors st f hst)

theorem p2Step_loops (colors : Bool) (st : P1State) (g0 : Face)
    (h : st.loops = st.usedFaces.flatMap (fun g => (cornersOf g).map (loopOfCorner colors))) :
    (p2Step colors st g0).loops =
      (p2Step colors st g0).usedFaces.flatMap
        (fun g => (cornersOf g).map (loopOfCorner colors)) := by
  unfold p2Step
  split_ifs with hok
  · show st.loops ++ (cornersOf g0).map (loopOfCorner colors) =
      (st.usedFaces ++ [g0]).flatMap (fun g => (cornersOf g).map (loopOfCorner colors))
    rw [List.flatMap_append, h]
    simp
  · exact h

theorem p2_fold_loops (colors : Bool) (l : List Face) (st : P1State)
    (h : st.loops = st.usedFaces.flatMap (fun g => (cornersOf g).map (loopOfCorner colors))) :
    (l.foldl (p2Step colors) st).loops =
      (l.foldl (p2Step colors) st).usedFaces.flatMap
        (fun g => (cornersOf g).map (loopOfCorner colors)) :=
  List.foldlRecOn l (p2Step colors) st h
    (fun st hst g _ => p2Step_loops colors st g hst)

theorem p2Step_valid (colors : Bool) (st : P1State) (g0 : Face)
    (hbm : ∀ t ∈ st.bmFaces, distinct3 t.tri = true)
    (hused : ∀ g ∈ st.usedFaces, faceIsValid g = true) :
    (∀ t ∈ (p2Step colors st g0).bmFaces, distinct3 t.tri = true) ∧
    (∀ g ∈ (p2Step colors st g0).usedFaces, faceIsValid g = true) := by
  unfold p2Step
  split_ifs with hok
  · have hd3 : distinct3 (triOf g0) = true := by
      have h := hok
      simp only [facesNewOk, Bool.and_eq_true] at h
      exact h.1
    constructor
    · intro t ht
      simp only [setupTri, List.mem_append, List.mem_singleton] at ht
      rcases ht with ht | ht
      · exact hbm t ht
      · subst ht; exact hd3
    · intro g hg
      simp only [setupTri, List.mem_append, List.mem_singleton] at hg
      rcases hg with hg | hg
      · exact hused g hg
      · subst hg; exact hd3
  · exact ⟨hbm, hused⟩

theorem p2_fold_valid (colors : Bool) (l : List Face) (st : P1State)
    (hbm : ∀ t ∈ st.bmFaces, distinct3 t.tri = true)
    (hused : ∀ g ∈ st.usedFaces, faceIsValid g = true) :
    (∀ t ∈ (l.foldl (p2Step colors) st).bmFaces, distinct3 t.tri = true) ∧
    (∀ g ∈ (l.foldl (p2Step colors) st).usedFaces, faceIsValid g = true) :=
  @List.foldlRecOn P1State Face
    (fun s => (∀ t ∈ s.bmFaces, distinct3 t.tri = true) ∧
      (∀ g ∈ s.usedFaces, faceIsValid g = true))
    l (p2Step colors) st ⟨hbm, hused⟩
    (fun s hs g _ => p2Step_valid colors s g hs.1 hs.2)

theorem p2Step_used_mono (colors : Bool) (st : P1State) (g0 : Face) :
    ∀ x ∈ st.usedFaces, x ∈ (p2Step colors st g0).usedFaces := by
  intro x hx
  unfold p2Step
  split_ifs with hok
  · simp only [setupTri, List.mem_append]
    exact Or.inl hx
  · exact hx

theorem p2Step_tri_mono (colors : Bool) (st : P1State) (g0 : Face) (t : Nat × Nat × Nat)
    (h : triExists st.bmFaces t = true) :
    triExists (p2Step colors st g0).bmFaces t = true := by
  unfold p2Step
  split_ifs with hok
  · show triExists (st.bmFaces ++ [_]) t = true
    simp only [triExists, List.any_append, Bool.or_eq_true]
    exact Or.inl h
  · exact h

theorem p2_fold_used_mono (colors : Bool) (l : List Face) (st : P1State) :
    ∀ x ∈ st.usedFaces, x ∈ (l.foldl (p2Step colors) st).usedFaces := by
  induction l generalizing st with
  | nil => intro x hx; exact hx
  | cons a t ih =>
    intro x hx
    exact ih (p2Step colors st a) x (p2Step_used_mono colors st a x hx)

theorem p2_fold_tri_mono (colors : Bool) (l : List Face) (st : P1State)
    (t : Nat × Nat × Nat) (h : triExists st.bmFaces t = true) :
    triExists (l.foldl (p2Step colors) st).bmFaces t = true := by
  induction l generalizing st with
  | nil => exact h
  | cons a r ih =>
    exact ih (p2Step colors st a) (p2Step_tri_mono colors st a t h)

theorem p2_fold_covers (colors : Bool) (l : List Face) (st : P1State)
    (hv : ∀ g ∈ l, distinct3 (triOf g) = true) :
    ∀ g ∈ l, g ∈ (l.foldl (p2Step colors) st).usedFaces ∨
      triExists (l.foldl (p2Step colors) st).bmFaces (triOf g) = true := by
  induction l generalizing st with
  | nil => intro g hg; cases hg
  | cons a r ih =>
    intro g hg
    rcases List.mem_cons.1 hg with hga | hg
    · subst hga
      by_cases hok : facesNewOk st.bmFaces (triOf g) = true
      · left
        show g ∈ (r.foldl (p2Step colors) (p2Step colors st g)).usedFaces
        refine p2_fold_used_mono colors r (p2Step colors st g) g ?_
        unfold p2Step
        rw [if_pos hok]
        simp [setupTri]
      · right
        have hex : triExists st.bmFaces (triOf g) = true := by
          have hd := hv g (List.mem_cons_self g r)
          cases h2 : triExists st.bmFaces (triOf g)
          · exfalso
            apply hok
            simp [facesNewOk, hd, h2]
          · rfl
        show triExists (r.foldl (p2Step colors) (p2Step colors st g)).bmFaces (triOf g) = true
        exact p2_fold_tri_mono colors r (p2Step colors st g) (triOf g)
          (p2Step_tri_mono colors st g (triOf g) hex)
    · exact ih (p2Step colors st a) (fun x hx => hv x (List.mem_cons_of_mem a hx)) g hg

end PvBlenderCod

namespace PvBlenderCod

theorem countSome_le (m : List (Option Nat)) : countSome m ≤ m.length :=
  List.countP_le_length _

theorem runPass1_loops (colors : Bool) (sm : SubMesh) (nm : Nat) :
    (runPass1 colors sm nm).loops =
      (runPass1 colors sm nm).usedFaces.flatMap
        (fun g => (cornersOf g).map (loopOfCorner colors)) := by
  unfold runPass1
  exact p1_fold_loops sm.verts colors sm.faces (p1Init sm.verts nm) rfl

/-- Claim C1: for every sub-mesh the produced host mesh has at most twice
the source vertex count; each original vertex is assigned at most one
duplicate (`dup_verts` has one entry per populated `dup_verts_mapping`
slot, so its size is bounded by the source vertex count), and every
duplicate index is referenced by some deferred face. -/
theorem c1_vertex_bound (dup colors : Bool) (scale : ℚ) (sm : SubMesh) (nm : Nat)
    (hWF : ∀ f ∈ sm.faces, triBound sm.verts.length f) :
    (loadSubMesh dup colors scale sm nm).bmVerts.length ≤ 2 * sm.verts.length ∧
    (runPass1 colors sm nm).dupVerts.length = countSome (runPass1 colors sm nm).dupMap ∧
    (runPass1 colors sm nm).dupVerts.length ≤ sm.verts.length ∧
    (∀ v d, (runPass1 colors sm nm).dupMap.getD v none = some d →
      ∃ g ∈ (runPass1 colors sm nm).dupFaces, d ∈ triList (triOf g)) := by
  have hinv := runPass1_inv colors sm nm hWF
  have hlen : (runPass1 colors sm nm).dupMap.length = sm.verts.length := hinv.dup.map_len
  have hcnt := hinv.dup.count_eq
  have hle : (runPass1 colors sm nm).dupVerts.length ≤ sm.verts.length := by
    rw [hcnt, ← hlen]
    exact countSome_le _
  refine ⟨?_, hcnt, hle, hinv.dup_ref⟩
  unfold loadSubMesh
  dsimp only
  split_ifs with hdup
  · show (sm.verts.map (scaleVert scale) ++
      (runPass1 colors sm nm).dupVerts.map (scaleVert scale)).length ≤ 2 * sm.verts.length
    rw [List.length_append, List.length_map, List.length_map]
    omega
  · show (sm.verts.map (scaleVert scale)).length ≤ 2 * sm.verts.length
    rw [List.length_map]
    omega

/-- Claim C1 witness: evaluation on a four-vertex sub-mesh. -/
theorem c1_vertex_bound_witness :
    (loadSubMesh true false 1 smSmall 1).bmVerts.length ≤ 2 * smSmall.verts.length :=
  (c1_vertex_bound true false 1 smSmall 1 (by decide)).1

/-- Claim C3: a face whose three vertex indices are not a valid triangle is
never inserted in either pass (it reaches neither the used faces nor the
deferred duplicates), and consequently every triangle of the produced host
mesh has three pairwise-distinct vertices. -/
theorem c3_no_degenerate (dup colors : Bool) (scale : ℚ) (sm : SubMesh) (nm : Nat)
    (hWF : ∀ f ∈ sm.faces, triBound sm.verts.length f) :
    (∀ t ∈ (loadSubMesh dup colors scale sm nm).final.bmFaces, distinct3 t.tri = true) ∧
    (∀ f ∈ sm.faces, faceIsValid (swapWinding f) = false →
      swapWinding f ∉ (loadSubMesh dup colors scale sm nm).final.usedFaces ∧
      swapWinding f ∉ (runPass1 colors sm nm).dupFaces) := by
  have hinv := runPass1_inv colors sm nm hWF
  have hmain :
      (∀ t ∈ (loadSubMesh dup colors scale sm nm).final.bmFaces, distinct3 t.tri = true) ∧
      (∀ g ∈ (loadSubMesh dup colors scale sm nm).final.usedFaces, faceIsValid g = true) := by
    unfold loadSubMesh
    dsimp only
    split_ifs with hdup
    · exact p2_fold_valid colors _ _ hinv.bm_valid hinv.used_valid
    · exact ⟨hinv.bm_valid, hinv.used_valid⟩
  refine ⟨hmain.1, ?_⟩
  intro f hf hdeg
  constructor
  · intro hmem
    have hv := hmain.2 _ hmem
    simp [hv] at hdeg
  · intro hmem
    have hv := hinv.dup_valid _ hmem
    simp [hv] at hdeg

/-- Claim C3 witness: the degenerate third face of the sample sub-mesh is
dropped: it reaches neither the used faces nor the deferred duplicates. -/
theorem c3_no_degenerate_witness :
    swapWinding (mkFace 1 1 3 3) ∉ (loadSubMesh true false 1 smSmall 1).final.usedFaces ∧
    swapWinding (mkFace 1 1 3 3) ∉ (runPass1 false smSmall 1).dupFaces :=
  (c3_no_degenerate true false 1 smSmall 1 (by decide)).2
    (mkFace 1 1 3 3) (by decide) (by decide)

/-- Claim C5: the loop buffer is exactly the per-corner records of the
successfully inserted faces in insertion order, and for every inserted
corner with source UV `(u, v)` the stored UV is `(u, 1 - v)`: V flipped,
U unchanged. -/
theorem c5_uv_flip (dup colors : Bool) (scale : ℚ) (sm : SubMesh) (nm : Nat) :
    (loadSubMesh dup colors scale sm nm).final.loops =
      (loadSubMesh dup colors scale sm nm).final.usedFaces.flatMap
        (fun g => (cornersOf g).map (loopOfCorner colors)) ∧
    (∀ l ∈ (loadSubMesh dup colors scale sm nm).final.loops,
      ∃ g ∈ (loadSubMesh dup colors scale sm nm).final.usedFaces,
        ∃ c ∈ cornersOf g, l.uv = (c.uv.1, 1 - c.uv.2)) := by
  have hmain : (loadSubMesh dup colors scale sm nm).final.loops =
      (loadSubMesh dup colors scale sm nm).final.usedFaces.flatMap
        (fun g => (cornersOf g).map (loopOfCorner colors)) := by
    unfold loadSubMesh
    dsimp only
    split_ifs with hdup
    · exact p2_fold_loops colors _ _ (runPass1_loops colors sm nm)
    · exact runPass1_loops colors sm nm
  refine ⟨hmain, ?_⟩
  intro l hl
  rw [hmain, List.mem_flatMap] at hl
  obtain ⟨g, hg, hl2⟩ := hl
  rw [List.mem_map] at hl2
  obtain ⟨c, hc, hlc⟩ := hl2
  refine ⟨g, hg, c, hc, ?_⟩
  rw [← hlc]
  rfl


theorem p1Step_count (verts : List Vert) (colors : Bool) (st : P1State) (f0 : Face) :
    (p1Step verts colors st f0).keptFaces.length +
      (p1Step verts colors st f0).unusedFaces.length
      = st.keptFaces.length + st.unusedFaces.length + 1 := by
  unfold p1Step
  dsimp only
  split_ifs with hok hval
  · show (st.keptFaces ++ [swapWinding f0]).length + st.unusedFaces.length = _
    rw [List.length_append]
    simp
    omega
  · show st.keptFaces.length + (st.unusedFaces ++ [swapWinding f0]).length = _
    rw [List.length_append]
    simp
    omega
  · obtain ⟨e1, e2, e3, e4, e5, e6, e7⟩ := deferFace_fields verts st (swapWinding f0)
    show (deferFace verts st (swapWinding f0)).1.keptFaces.length +
      ((deferFace verts st (swapWinding f0)).1.unusedFaces ++
        [(deferFace verts st (swapWinding f0)).2]).length = _
    rw [e7, e6, List.length_append]
    simp
    omega

theorem p1_fold_count (verts : List Vert) (colors : Bool) (l : List Face) (st : P1State) :
    (l.foldl (p1Step verts colors) st).keptFaces.length +
      (l.foldl (p1Step verts colors) st).unusedFaces.length
      = st.keptFaces.length + st.unusedFaces.length + l.length := by
  induction l generalizing st with
  | nil => simp
  | cons a t ih =>
    show (t.foldl (p1Step verts colors) (p1Step verts colors st a)).keptFaces.length +
      (t.foldl (p1Step verts colors) (p1Step verts colors st a)).unusedFaces.length = _
    rw [ih (p1Step verts colors st a), p1Step_count]
    simp
    omega

theorem p1Step_kept_src (verts : List Vert) (colors : Bool) (st : P1State) (f0 : Face) :
    ∀ g ∈ (p1Step verts colors st f0).keptFaces,
      g ∈ st.keptFaces ∨ g = swapWinding f0 := by
  intro g hg
  unfold p1Step at hg
  dsimp only at hg
  split_ifs at hg with hok hval
  · have hg2 : g ∈ st.keptFaces ++ [swapWinding f0] := hg
    rcases List.mem_append.1 hg2 with h | h
    · exact Or.inl h
    · exact Or.inr (List.mem_singleton.1 h)
  · exact Or.inl hg
  · obtain ⟨e1, e2, e3, e4, e5, e6, e7⟩ := deferFace_fields verts st (swapWinding f0)
    have hg2 : g ∈ (deferFace verts st (swapWinding f0)).1.keptFaces := hg
    rw [e7] at hg2
    exact Or.inl hg2

theorem p1_fold_kept_src (verts : List Vert) (colors : Bool) (l : List Face) (st : P1State)
    (h : ∀ g ∈ st.keptFaces, ∃ f ∈ l, g = swapWinding f) :
    ∀ g ∈ (l.foldl (p1Step verts colors) st).keptFaces,
      ∃ f ∈ l, g = swapWinding f :=
  @List.foldlRecOn P1State Face
    (fun s => ∀ g ∈ s.keptFaces, ∃ f ∈ l, g = swapWinding f)
    l (p1Step verts colors) st h
    (fun s hs a ha g hg => by
      rcases p1Step_kept_src verts colors s a g hg with h2 | h2
      · exact hs g h2
      · exact ⟨a, ha, h2⟩)

theorem p1Step_unused_src (verts : List Vert) (colors : Bool) (st : P1State) (f0 : Face)
    (l : List Face) (hf0 : f0 ∈ l)
    (h : ∀ g ∈ st.unusedFaces, g ∈ st.dupFaces ∨ ∃ f ∈ l, g = swapWinding f) :
    ∀ g ∈ (p1Step verts colors st f0).unusedFaces,
      g ∈ (p1Step verts colors st f0).dupFaces ∨ ∃ f ∈ l, g = swapWinding f := by
  intro g hg
  unfold p1Step at hg ⊢
  dsimp only at hg ⊢
  split_ifs at hg ⊢ with hok hval
  · exact h g hg
  · have hg2 : g ∈ st.unusedFaces ++ [swapWinding f0] := hg
    rcases List.mem_append.1 hg2 with h2 | h2
    · exact h g h2
    · exact Or.inr ⟨f0, hf0, List.mem_singleton.1 h2⟩
  · obtain ⟨e1, e2, e3, e4, e5, e6, e7⟩ := deferFace_fields verts st (swapWinding f0)
    have hg2 : g ∈ (deferFace verts st (swapWinding f0)).1.unusedFaces ++
      [(deferFace verts st (swapWinding f0)).2] := hg
    rcases List.mem_append.1 hg2 with h2 | h2
    · rw [e6] at h2
      rcases h g h2 with h3 | h3
      · left
        show g ∈ (deferFace verts st (swapWinding f0)).1.dupFaces ++
          [(deferFace verts st (swapWinding f0)).2]
        rw [e5]
        exact List.mem_append_left _ h3
      · exact Or.inr h3
    · left
      show g ∈ (deferFace verts st (swapWinding f0)).1.dupFaces ++
        [(deferFace verts st (swapWinding f0)).2]
      exact List.mem_append_right _ h2

theorem p1_fold_unused_src (verts : List Vert) (colors : Bool) (l : List Face)
    (st : P1State)
    (h : ∀ g ∈ st.unusedFaces, g ∈ st.dupFaces ∨ ∃ f ∈ l, g = swapWinding f) :
    ∀ g ∈ (l.foldl (p1Step verts colors) st).unusedFaces,
      g ∈ (l.foldl (p1Step verts colors) st).dupFaces ∨ ∃ f ∈ l, g = swapWinding f :=
  @List.foldlRecOn P1State Face
    (fun s => ∀ g ∈ s.unusedFaces, g ∈ s.dupFaces ∨ ∃ f ∈ l, g = swapWinding f)
    l (p1Step verts colors) st h
    (fun s hs a ha => p1Step_unused_src verts colors s a l ha hs)

/-- Claim C9: the import destructively mutates the input sub-mesh.  Every
face is winding-swapped in place, every face that failed primary insertion
(degenerate or deferred) is removed from `sub_mesh.faces` (so the faces
that remain are exactly the swapped first-pass successes), and the
deferred faces — also members of the removed set — have their corner
vertex references rewritten to duplicate indices at or above the original
vertex count. -/
theorem c9_submesh_mutation (colors : Bool) (sm : SubMesh) (nm : Nat)
    (hWF : ∀ f ∈ sm.faces, triBound sm.verts.length f) :
    (runPass1 colors sm nm).keptFaces.length +
        (runPass1 colors sm nm).unusedFaces.length = sm.faces.length ∧
    (∀ g ∈ (runPass1 colors sm nm).keptFaces, ∃ f ∈ sm.faces, g = swapWinding f) ∧
    (∀ g ∈ (runPass1 colors sm nm).unusedFaces,
      g ∈ (runPass1 colors sm nm).dupFaces ∨ ∃ f ∈ sm.faces, g = swapWinding f) ∧
    (∀ g ∈ (runPass1 colors sm nm).dupFaces, g ∈ (runPass1 colors sm nm).unusedFaces) ∧
    (∀ g ∈ (runPass1 colors sm nm).dupFaces, ∀ x ∈ triList (triOf g),
      sm.verts.length ≤ x) ∧
    (runPass1 colors sm nm).keptFaces = (runPass1 colors sm nm).usedFaces := by
  have hinv := runPass1_inv colors sm nm hWF
  refine ⟨?_, ?_, ?_, hinv.dup_in_unused, hinv.dup_ge, hinv.kept_used⟩
  · unfold runPass1
    rw [p1_fold_count]
    simp [p1Init]
  · unfold runPass1
    exact p1_fold_kept_src sm.verts colors sm.faces (p1Init sm.verts nm)
      (fun g hg => absurd hg (List.not_mem_nil g))
  · unfold runPass1
    exact p1_fold_unused_src sm.verts colors sm.faces (p1Init sm.verts nm)
      (fun g hg => absurd hg (List.not_mem_nil g))

/-- Claim C9 witness: the three faces of the sample sub-mesh are split
between kept and removed. -/
theorem c9_submesh_mutation_witness :
    (runPass1 false smSmall 1).keptFaces.length +
      (runPass1 false smSmall 1).unusedFaces.length = smSmall.faces.length :=
  (c9_submesh_mutation false smSmall 1 (by decide)).1

/-- Claim C2 (amended): a face that collides with an identical existing
triangle is deferred; the deferred faces are replayed in a second pass iff
`use_dup_tris` is enabled, each being inserted unless an identical
triangle already exists at that point (duplicates of duplicates are
skipped); when the flag is disabled neither the deferred faces nor their
duplicate vertices reach the host mesh. -/
theorem c2_amended_thm (colors : Bool) (scale : ℚ) (sm : SubMesh) (nm : Nat)
    (hWF : ∀ f ∈ sm.faces, triBound sm.verts.length f) :
    ((loadSubMesh false colors scale sm nm).final = runPass1 colors sm nm ∧
     (loadSubMesh false colors scale sm nm).bmVerts.length = sm.verts.length ∧
     (∀ g ∈ (runPass1 colors sm nm).dupFaces,
       g ∉ (loadSubMesh false colors scale sm nm).final.usedFaces)) ∧
    ((loadSubMesh true colors scale sm nm).bmVerts.length
        = sm.verts.length + (runPass1 colors sm nm).dupVerts.length ∧
     (loadSubMesh true colors scale sm nm).final =
       (runPass1 colors sm nm).dupFaces.foldl (p2Step colors) (runPass1 colors sm nm) ∧
     (∀ g ∈ (runPass1 colors sm nm).dupFaces,
       g ∈ (loadSubMesh true colors scale sm nm).final.usedFaces ∨
         triExists (loadSubMesh true colors scale sm nm).final.bmFaces (triOf g)
           = true)) := by
  have hinv := runPass1_inv colors sm nm hWF
  refine ⟨⟨rfl, by simp [loadSubMesh], ?_⟩, ⟨by simp [loadSubMesh], rfl, ?_⟩⟩
  · intro g hg hmem
    have hge := hinv.dup_ge g hg (triOf g).1 (by simp [triList])
    have hlt := hinv.used_lt g hmem (triOf g).1 (by simp [triList])
    omega
  · have hv : ∀ g ∈ (runPass1 colors sm nm).dupFaces, distinct3 (triOf g) = true :=
      fun g hg => hinv.dup_valid g hg
    exact p2_fold_covers colors (runPass1 colors sm nm).dupFaces
      (runPass1 colors sm nm) hv

/-- Claim C2 (amended) witness: with `use_dup_tris` on, the duplicate
vertices are appended to the host vertex table. -/
theorem c2_amended_witness :
    (loadSubMesh true false 1 smDup 1).bmVerts.length
      = smDup.verts.length + (runPass1 false smDup 1).dupVerts.length :=
  (c2_amended_thm false 1 smDup 1 (by decide)).2.1

end PvBlenderCod

namespace PvBlenderCod

theorem endsWith001_append (x : String) : endsWith001 (x ++ suffix001) = true := by
  rw [endsWith001, String.data_append]
  simp [List.isSuffixOf]

theorem string_append_right_cancel {a b : String} (s : String)
    (h : a ++ s = b ++ s) : a = b := by
  have hd : a.data ++ s.data = b.data ++ s.data := by
    rw [← String.data_append, ← String.data_append, h]
  exact String.ext (List.append_cancel_right hd)

theorem ne_of_endsWith001 {a b : String} (ha : endsWith001 a = false)
    (hb : endsWith001 b = true) : a ≠ b := by
  intro h
  rw [h, hb] at ha
  cases ha

theorem mergeLoop1_stop (bs : List EBone) (i : Nat) (h : ¬ i < bs.length) :
    mergeLoop1 bs i = bs := by
  rw [mergeLoop1]
  simp [h]

theorem mergeLoop1_step_hit (bs : List EBone) (i : Nat) (h : i < bs.length)
    (hhit : hasBone bs (bs[i].name ++ suffix001) = true) :
    mergeLoop1 bs i =
      mergeLoop1 (reassignChildren bs (bs[i].name) (bs[i].name ++ suffix001)) (i + 1) := by
  conv_lhs => rw [mergeLoop1]
  simp [h, hhit]

theorem mergeLoop1_step_miss (bs : List EBone) (i : Nat) (h : i < bs.length)
    (hmiss : hasBone bs (bs[i].name ++ suffix001) = false) :
    mergeLoop1 bs i = mergeLoop1 bs (i + 1) := by
  conv_lhs => rw [mergeLoop1]
  simp [h, hmiss]

theorem mergeLoop2_stop (bs : List EBone) (i : Nat) (h : ¬ i < bs.length) :
    mergeLoop2 bs i = bs := by
  rw [mergeLoop2]
  simp [h]

theorem mergeLoop2_step_miss (bs : List EBone) (i : Nat) (h : i < bs.length)
    (hmiss : endsWith001 bs[i].name = false) :
    mergeLoop2 bs i = mergeLoop2 bs (i + 1) := by
  conv_lhs => rw [mergeLoop2]
  simp [h, hmiss]

theorem mergeLoop2_id (bs : List EBone)
    (h : ∀ b ∈ bs, endsWith001 b.name = false) :
    ∀ n i, bs.length - i ≤ n → mergeLoop2 bs i = bs := by
  intro n
  induction n with
  | zero =>
    intro i hi
    exact mergeLoop2_stop bs i (by omega)
  | succ n ih =>
    intro i hi
    by_cases hlt : i < bs.length
    · have hb : bs[i] ∈ bs := List.getElem_mem hlt
      rw [mergeLoop2_step_miss bs i hlt (h _ hb)]
      exact ih (i + 1) (by omega)
    · exact mergeLoop2_stop bs i hlt

theorem fixParent_name (done S : List EBone) (c : EBone) :
    (fixParent done S c).name = c.name := by
  rw [fixParent]
  cases c.parent with
  | none => rfl
  | some p =>
    simp only
    split_ifs with h
    · cases done.find? (fun b => (b.name ++ suffix001) == p) <;> rfl
    · rfl

theorem fixParent_nil (S : List EBone) (c : EBone) : fixParent [] S c = c := by
  rw [fixParent]
  cases c.parent with
  | none => rfl
  | some p =>
    simp only [List.find?_nil]
    split_ifs <;> rfl

theorem stateAt_zero (B S : List EBone) : stateAt B S 0 = B ++ S := by
  rw [stateAt]
  simp only [List.take_zero]
  rw [List.map_congr_left (fun c _ => fixParent_nil S c),
    List.map_congr_left (fun c _ => fixParent_nil S c)]
  congr 1
  · exact List.map_id' B
  · rw [List.map_id' _, List.filter_eq_self.2]
    intro s _
    simp [hasPartnerIn]

end PvBlenderCod

namespace PvBlenderCod

theorem not_mem_take_of_nodup (l : List EBone) (i : Nat) (h : i < l.length)
    (hn : l.Nodup) : l[i] ∉ l.take i := by
  intro hmem
  have hd : l[i] ∈ l.drop i := by
    have h0 : 0 < (l.drop i).length := by simp; omega
    have he : (l.drop i).get ⟨0, h0⟩ = l[i] := by
      simp [List.get_eq_getElem, List.getElem_drop]
    rw [← he]
    exact List.get_mem _ _ _
  rw [← List.take_append_drop i l] at hn
  exact (List.nodup_append.1 hn).2.2 hmem hd

theorem no_partner_in_take (B S : List EBone) (i : Nat) (hi : i < B.length)
    (hN : ((B ++ S).map EBone.name).Nodup) :
    ∀ b2 ∈ B.take i, ¬ (b2.name ++ suffix001 = B[i].name ++ suffix001) := by
  intro b2 hb2 h
  have hbn : b2.name = B[i].name := string_append_right_cancel _ h
  have hBnodup : (B.map EBone.name).Nodup := by
    rw [List.map_append] at hN
    exact (List.nodup_append.1 hN).1
  have hBd : B.Nodup := hBnodup.of_map _
  have hb2B : b2 ∈ B := List.mem_of_mem_take hb2
  have hbe : b2 = B[i] :=
    List.inj_on_of_nodup_map hBnodup hb2B (List.getElem_mem hi) hbn
  rw [hbe] at hb2
  exact not_mem_take_of_nodup B i hi hBd hb2

theorem eraseP_append_no {α : Type} (p : α → Bool) (l₁ l₂ : List α)
    (h : ∀ x ∈ l₁, ¬ p x = true) :
    (l₁ ++ l₂).eraseP p = l₁ ++ l₂.eraseP p := by
  induction l₁ with
  | nil => simp
  | cons a t ih =>
    have ha : p a = false := by
      cases hp : p a
      · rfl
      · exact absurd hp (h a (List.mem_cons_self a t))
    simp only [List.cons_append, List.eraseP_cons, ha, cond_false]
    rw [ih (fun x hx => h x (List.mem_cons_of_mem a hx))]

theorem eraseP_map_name (p : String → Bool) (f : EBone → EBone)
    (hf : ∀ x, (f x).name = x.name) (l : List EBone) :
    (l.map f).eraseP (fun x => p x.name) = (l.eraseP (fun x => p x.name)).map f := by
  induction l with
  | nil => simp
  | cons a t ih =>
    simp only [List.map_cons, List.eraseP_cons, hf a]
    cases hp : p a.name
    · simp only [cond_false, List.map_cons]
      rw [ih]
    · simp only [cond_true]

theorem eraseP_eq_filter_not {α : Type} (p : α → Bool) (l : List α)
    (h : (l.filter p).length ≤ 1) :
    l.eraseP p = l.filter (fun a => !p a) := by
  induction l with
  | nil => simp
  | cons a t ih =>
    cases hp : p a
    · have h2 : (t.filter p).length ≤ 1 := by
        rw [List.filter_cons, hp] at h
        simpa using h
      simp [List.eraseP_cons, List.filter_cons, hp, ih h2]
    · rw [List.filter_cons, hp] at h
      simp at h
      have ht : List.filter (fun a => !p a) t = t := by
        apply List.filter_eq_self.2
        intro x hx
        show (!p x) = true
        rw [h x hx]
        rfl
      simp [List.eraseP_cons, List.filter_cons, hp, ht]

theorem length_filter_name_le_one (l : List EBone)
    (hn : (l.map EBone.name).Nodup) (n : String) :
    (l.filter (fun s => s.name == n)).length ≤ 1 := by
  induction l with
  | nil => simp
  | cons a t ih =>
    rw [List.map_cons, List.nodup_cons] at hn
    cases hp : (a.name == n)
    · simp only [List.filter_cons, hp, Bool.false_eq_true, if_false]
      exact ih hn.2
    · simp only [List.filter_cons, hp, if_true]
      have htn : t.filter (fun s => s.name == n) = [] := by
        rw [List.filter_eq_nil_iff]
        intro s hs hsn
        rw [beq_iff_eq] at hsn hp
        apply hn.1
        rw [hp, ← hsn]
        exact List.mem_map_of_mem _ hs
      rw [htn]
      simp

end PvBlenderCod

namespace PvBlenderCod

theorem hasBone_stateAt (B S : List EBone) (i : Nat) (n : String) :
    hasBone (stateAt B S i) n = true ↔
      (∃ x ∈ B, x.name = n) ∨
        ∃ s ∈ S, s.name = n ∧ hasPartnerIn (B.take i) s = false := by
  rw [hasBone, List.any_eq_true]
  constructor
  · rintro ⟨x, hx, hxn⟩
    rw [beq_iff_eq] at hxn
    rw [stateAt, List.mem_append] at hx
    rcases hx with hx | hx
    · obtain ⟨y, hy, hyx⟩ := List.mem_map.1 hx
      refine Or.inl ⟨y, hy, ?_⟩
      rw [← fixParent_name (B.take i) S y, hyx, hxn]
    · obtain ⟨y, hy, hyx⟩ := List.mem_map.1 hx
      obtain ⟨hyS, hyf⟩ := List.mem_filter.1 hy
      refine Or.inr ⟨y, hyS, ?_, ?_⟩
      · rw [← fixParent_name (B.take i) S y, hyx, hxn]
      · simpa using hyf
  · rintro (⟨x, hx, hxn⟩ | ⟨s, hs, hsn, hsp⟩)
    · refine ⟨fixParent (B.take i) S x, ?_, ?_⟩
      · rw [stateAt, List.mem_append]
        exact Or.inl (List.mem_map_of_mem _ hx)
      · rw [beq_iff_eq, fixParent_name]
        exact hxn
    · refine ⟨fixParent (B.take i) S s, ?_, ?_⟩
      · rw [stateAt, List.mem_append]
        right
        refine List.mem_map_of_mem _ (List.mem_filter.2 ⟨hs, ?_⟩)
        simp [hsp]
      · rw [beq_iff_eq, fixParent_name]
        exact hsn

theorem fixParent_step_miss (done S : List EBone) (b : EBone)
    (hSn : hasBone S (b.name ++ suffix001) = false) (c : EBone) :
    fixParent (done ++ [b]) S c = fixParent done S c := by
  rcases c with ⟨cn, cp⟩
  cases cp with
  | none => rfl
  | some p =>
    show fixParent (done ++ [b]) S ⟨cn, some p⟩ = fixParent done S ⟨cn, some p⟩
    rw [fixParent, fixParent]
    simp only
    by_cases hSp : hasBone S p = true
    · rw [if_pos hSp, if_pos hSp, List.find?_append]
      cases hf : done.find? (fun b2 => (b2.name ++ suffix001) == p) with
      | some b2 => rfl
      | none =>
        have hbp : ((b.name ++ suffix001) == p) = false := by
          cases hbq : ((b.name ++ suffix001) == p)
          · rfl
          · rw [beq_iff_eq] at hbq
            rw [hbq] at hSn
            rw [hSp] at hSn
            cases hSn
        simp [List.find?, hbp]
    · rw [if_neg hSp, if_neg hSp]

theorem fixParent_step_hit (done S : List EBone) (b : EBone)
    (hSn : hasBone S (b.name ++ suffix001) = true)
    (hdone : ∀ b2 ∈ done, endsWith001 b2.name = false)
    (c : EBone) :
    (if (fixParent done S c).parent == some (b.name ++ suffix001)
      then { fixParent done S c with parent := some b.name }
      else fixParent done S c)
    = fixParent (done ++ [b]) S c := by
  rcases c with ⟨cn, cp⟩
  cases cp with
  | none =>
    rw [show fixParent done S ⟨cn, none⟩ = ⟨cn, none⟩ from rfl]
    rfl
  | some p =>
    by_cases hSp : hasBone S p = true
    · cases hf : done.find? (fun b2 => (b2.name ++ suffix001) == p) with
      | some b2 =>
        have hb2 : b2 ∈ done := List.mem_of_find?_eq_some hf
        have hb2e : endsWith001 b2.name = false := hdone b2 hb2
        have hne : b2.name ≠ b.name ++ suffix001 :=
          ne_of_endsWith001 hb2e (endsWith001_append b.name)
        have hfix : fixParent done S ⟨cn, some p⟩ = ⟨cn, some b2.name⟩ := by
          rw [fixParent]
          simp only
          rw [if_pos hSp, hf]
        have hfix2 : fixParent (done ++ [b]) S ⟨cn, some p⟩ = ⟨cn, some b2.name⟩ := by
          rw [fixParent]
          simp only
          rw [if_pos hSp, List.find?_append, hf]
          rfl
        rw [hfix, hfix2]
        have hbeq : ((some b2.name : Option String) == some (b.name ++ suffix001))
            = false := by
          simp [hne]
        simp only [hbeq]
        rw [if_neg (by simp [hne])]
      | none =>
        by_cases hpn : p = b.name ++ suffix001
        · have hfix : fixParent done S ⟨cn, some p⟩ = ⟨cn, some p⟩ := by
            rw [fixParent]
            simp only
            rw [if_pos hSp, hf]
          have hfix2 : fixParent (done ++ [b]) S ⟨cn, some p⟩
              = ⟨cn, some b.name⟩ := by
            rw [fixParent]
            simp only
            rw [if_pos hSp, List.find?_append, hf]
            have hmatch : ((b.name ++ suffix001) == p) = true := by
              rw [beq_iff_eq]
              exact hpn.symm
            simp [List.find?, hmatch]
          rw [hfix, hfix2]
          rw [if_pos (by simp [hpn])]
        · have hfix : fixParent done S ⟨cn, some p⟩ = ⟨cn, some p⟩ := by
            rw [fixParent]
            simp only
            rw [if_pos hSp, hf]
          have hfix2 : fixParent (done ++ [b]) S ⟨cn, some p⟩ = ⟨cn, some p⟩ := by
            rw [fixParent]
            simp only
            rw [if_pos hSp, List.find?_append, hf]
            have hbp : ((b.name ++ suffix001) == p) = false := by
              cases hbq : ((b.name ++ suffix001) == p)
              · rfl
              · rw [beq_iff_eq] at hbq
                exact absurd hbq.symm hpn
            simp [List.find?, hbp]
          rw [hfix, hfix2]
          rw [if_neg (by simp [hpn])]
    · have hpn : p ≠ b.name ++ suffix001 := by
        intro h
        rw [h, hSn] at hSp
        exact hSp rfl
      have hfix : fixParent done S ⟨cn, some p⟩ = ⟨cn, some p⟩ := by
        rw [fixParent]
        simp only
        rw [if_neg hSp]
      have hfix2 : fixParent (done ++ [b]) S ⟨cn, some p⟩ = ⟨cn, some p⟩ := by
        rw [fixParent]
        simp only
        rw [if_neg hSp]
      rw [hfix, hfix2]
      rw [if_neg (by simp [hpn])]

end PvBlenderCod

namespace PvBlenderCod

theorem take_succ_concat (B : List EBone) (i : Nat) (h : i < B.length) :
    B.take (i + 1) = B.take i ++ [B[i]] := by
  rw [List.take_succ]
  simp [List.getElem?_eq_getElem h]

theorem hasPartnerIn_concat (done : List EBone) (b : EBone) (s : EBone) :
    hasPartnerIn (done ++ [b]) s
      = (hasPartnerIn done s || ((b.name ++ suffix001) == s.name)) := by
  rw [hasPartnerIn, hasPartnerIn, List.any_append]
  simp [List.any_cons]

theorem stateAt_succ_miss (B S : List EBone) (i : Nat) (hi : i < B.length)
    (hSn : hasBone S (B[i].name ++ suffix001) = false) :
    stateAt B S (i + 1) = stateAt B S i := by
  have htk := take_succ_concat B i hi
  have hnomatch : ∀ s ∈ S, ((B[i].name ++ suffix001) == s.name) = false := by
    intro s hs
    cases hq : ((B[i].name ++ suffix001) == s.name)
    · rfl
    · exfalso
      rw [beq_iff_eq] at hq
      have : hasBone S (B[i].name ++ suffix001) = true := by
        rw [hasBone, List.any_eq_true]
        exact ⟨s, hs, by rw [beq_iff_eq, hq]⟩
      rw [this] at hSn
      cases hSn
  rw [stateAt, stateAt, htk]
  have hfp : ∀ c, fixParent (B.take i ++ [B[i]]) S c = fixParent (B.take i) S c :=
    fixParent_step_miss (B.take i) S B[i] hSn
  have hfilter : S.filter (fun s => !hasPartnerIn (B.take i ++ [B[i]]) s)
      = S.filter (fun s => !hasPartnerIn (B.take i) s) := by
    apply List.filter_congr
    intro s hs
    rw [hasPartnerIn_concat, hnomatch s hs]
    simp
  rw [hfilter]
  rw [List.map_congr_left (fun c _ => hfp c), List.map_congr_left (fun c _ => hfp c)]

theorem stateAt_succ_hit (B S : List EBone) (i : Nat) (hi : i < B.length)
    (hB : ∀ b ∈ B, endsWith001 b.name = false)
    (hN : ((B ++ S).map EBone.name).Nodup)
    (hSn : hasBone S (B[i].name ++ suffix001) = true) :
    reassignChildren (stateAt B S i) (B[i].name) (B[i].name ++ suffix001)
      = stateAt B S (i + 1) := by
  have htk := take_succ_concat B i hi
  have hdone : ∀ b2 ∈ B.take i, endsWith001 b2.name = false :=
    fun b2 h2 => hB b2 (List.mem_of_mem_take h2)
  have hpoint : ∀ c,
      (if (fixParent (B.take i) S c).parent == some (B[i].name ++ suffix001)
        then { fixParent (B.take i) S c with parent := some (B[i].name) }
        else fixParent (B.take i) S c)
      = fixParent (B.take i ++ [B[i]]) S c :=
    fixParent_step_hit (B.take i) S B[i] hSn hdone
  have hSnd : (S.map EBone.name).Nodup := by
    rw [List.map_append] at hN
    exact (List.nodup_append.1 hN).2.1
  -- unfold the reassign into reparent-map and eraseP
  rw [reassignChildren, reparentChildren, stateAt, List.map_append,
    List.map_map, List.map_map]
  have hmapB : (B.map
      ((fun x => if x.parent == some (B[i].name ++ suffix001)
        then { x with parent := some (B[i].name) } else x) ∘ fixParent (B.take i) S))
      = B.map (fixParent (B.take i ++ [B[i]]) S) :=
    List.map_congr_left (fun c _ => hpoint c)
  have hmapS : ((S.filter (fun s => !hasPartnerIn (B.take i) s)).map
      ((fun x => if x.parent == some (B[i].name ++ suffix001)
        then { x with parent := some (B[i].name) } else x) ∘ fixParent (B.take i) S))
      = (S.filter (fun s => !hasPartnerIn (B.take i) s)).map
        (fixParent (B.take i ++ [B[i]]) S) :=
    List.map_congr_left (fun c _ => hpoint c)
  rw [hmapB, hmapS]
  -- push the eraseP through
  have hnomatchB : ∀ x ∈ B.map (fixParent (B.take i ++ [B[i]]) S),
      ¬ (x.name == B[i].name ++ suffix001) = true := by
    intro x hx hq
    obtain ⟨y, hy, hyx⟩ := List.mem_map.1 hx
    rw [beq_iff_eq] at hq
    have hyn : y.name = B[i].name ++ suffix001 := by
      rw [← fixParent_name (B.take i ++ [B[i]]) S y, hyx, hq]
    exact ne_of_endsWith001 (hB y hy) (endsWith001_append _) hyn
  rw [eraseP_append_no _ _ _ hnomatchB]
  have herase : (((S.filter (fun s => !hasPartnerIn (B.take i) s)).map
      (fixParent (B.take i ++ [B[i]]) S)).eraseP
        (fun x => x.name == B[i].name ++ suffix001))
      = ((S.filter (fun s => !hasPartnerIn (B.take i) s)).eraseP
        (fun x => x.name == B[i].name ++ suffix001)).map
          (fixParent (B.take i ++ [B[i]]) S) :=
    eraseP_map_name (fun nm => nm == B[i].name ++ suffix001) _
      (fun x => fixParent_name _ _ x) _
  rw [herase]
  have hfnd : ((S.filter (fun s => !hasPartnerIn (B.take i) s)).map
      EBone.name).Nodup := by
    have hsub : List.Sublist
        ((S.filter (fun s => !hasPartnerIn (B.take i) s)).map EBone.name)
        (S.map EBone.name) :=
      List.Sublist.map _ (List.filter_sublist S)
    exact hSnd.sublist hsub
  have hle1 : ((S.filter (fun s => !hasPartnerIn (B.take i) s)).filter
      (fun x => x.name == B[i].name ++ suffix001)).length ≤ 1 :=
    length_filter_name_le_one _ hfnd _
  have hcomm : ∀ (a b : String), (a == b) = (b == a) := by
    intro a b
    rw [Bool.eq_iff_iff]
    simp only [beq_iff_eq]
    exact eq_comm
  rw [eraseP_eq_filter_not _ _ hle1, List.filter_filter, stateAt, htk]
  congr 1
  apply congrArg
  apply List.filter_congr
  intro s _
  rw [hasPartnerIn_concat, Bool.not_or, hcomm (B[i].name ++ suffix001) s.name,
    Bool.and_comm]

end PvBlenderCod

namespace PvBlenderCod

theorem mergeLoop1_closedForm (B S : List EBone)
    (hB : ∀ b ∈ B, endsWith001 b.name = false)
    (hS : ∀ s ∈ S, ∃ b ∈ B, s.name = b.name ++ suffix001)
    (hN : ((B ++ S).map EBone.name).Nodup) :
    mergeLoop1 (B ++ S) 0 = B.map (fixParent B S) := by
  have key : ∀ k i, i + k = B.length →
      mergeLoop1 (stateAt B S i) i = B.map (fixParent B S) := by
    intro k
    induction k with
    | zero =>
      intro i hik
      have hi : i = B.length := by omega
      subst hi
      have hfe : S.filter (fun s => !hasPartnerIn (B.take B.length) s) = [] := by
        rw [List.take_length]
        rw [List.filter_eq_nil_iff]
        intro s hs
        obtain ⟨b, hb, hbn⟩ := hS s hs
        have hp : hasPartnerIn B s = true := by
          rw [hasPartnerIn, List.any_eq_true]
          exact ⟨b, hb, by rw [beq_iff_eq, hbn]⟩
        simp [hp]
      rw [stateAt, hfe]
      simp only [List.map_nil, List.append_nil, List.take_length]
      apply mergeLoop1_stop
      simp
    | succ k ih =>
      intro i hik
      have hi : i < B.length := by omega
      have hilt : i < (stateAt B S i).length := by
        rw [stateAt, List.length_append, List.length_map]
        omega
      have hBlen : i < (B.map (fixParent (B.take i) S)).length := by
        rw [List.length_map]
        exact hi
      have helem1 : (stateAt B S i)[i] = (B.map (fixParent (B.take i) S))[i] :=
        List.getElem_append_left hBlen
      have helem2 : (B.map (fixParent (B.take i) S))[i]
          = fixParent (B.take i) S B[i] := List.getElem_map _
      have helem : (stateAt B S i)[i] = fixParent (B.take i) S B[i] :=
        helem1.trans helem2
      have hname : ((stateAt B S i)[i]).name = B[i].name := by
        rw [helem, fixParent_name]
      by_cases hSn : hasBone S (B[i].name ++ suffix001) = true
      · have hhit : hasBone (stateAt B S i)
            (((stateAt B S i)[i]).name ++ suffix001) = true := by
          rw [hname, hasBone_stateAt]
          right
          rw [hasBone, List.any_eq_true] at hSn
          obtain ⟨s, hsS, hsn⟩ := hSn
          rw [beq_iff_eq] at hsn
          refine ⟨s, hsS, hsn, ?_⟩
          cases hp : hasPartnerIn (B.take i) s
          · rfl
          · exfalso
            rw [hasPartnerIn, List.any_eq_true] at hp
            obtain ⟨b2, hb2, hb2p⟩ := hp
            rw [beq_iff_eq] at hb2p
            exact no_partner_in_take B S i hi hN b2 hb2 (hb2p.trans hsn)
        rw [mergeLoop1_step_hit _ _ hilt hhit, hname,
          stateAt_succ_hit B S i hi hB hN hSn]
        exact ih (i + 1) (by omega)
      · have hSnf : hasBone S (B[i].name ++ suffix001) = false := by
          cases hq : hasBone S (B[i].name ++ suffix001)
          · rfl
          · exact absurd hq hSn
        have hmiss : hasBone (stateAt B S i)
            (((stateAt B S i)[i]).name ++ suffix001) = false := by
          rw [hname]
          cases hh : hasBone (stateAt B S i) (B[i].name ++ suffix001)
          · rfl
          · exfalso
            rcases (hasBone_stateAt B S i _).1 hh with ⟨x, hx, hxn⟩ | ⟨s, hsS, hsn, _⟩
            · have h1 := hB x hx
              rw [hxn] at h1
              rw [endsWith001_append] at h1
              cases h1
            · have : hasBone S (B[i].name ++ suffix001) = true := by
                rw [hasBone, List.any_eq_true]
                exact ⟨s, hsS, by rw [beq_iff_eq, hsn]⟩
              exact hSn this
        rw [mergeLoop1_step_miss _ _ hilt hmiss, ← stateAt_succ_miss B S i hi hSnf]
        exact ih (i + 1) (by omega)
  have h0 := key B.length 0 (by omega)
  rw [stateAt_zero] at h0
  exact h0

end PvBlenderCod

namespace PvBlenderCod

theorem setBoneParentFirst_names (bs : List EBone) (n p : String) :
    (setBoneParentFirst bs n p).map EBone.name = bs.map EBone.name := by
  induction bs with
  | nil => rfl
  | cons b t ih =>
    rw [setBoneParentFirst]
    cases hq : (b.name == n)
    · simp only [hq, Bool.false_eq_true, if_false, List.map_cons]
      rw [ih]
    · simp only [hq, if_true, List.map_cons]

theorem hasBone_eq_names (bs : List EBone) (m : String) :
    hasBone bs m = (bs.map EBone.name).any (fun x => x == m) := by
  rw [hasBone]
  induction bs with
  | nil => rfl
  | cons b t ih => simp [List.any_cons, ih]

theorem parentOf_setBoneParentFirst (bs : List EBone) (n p : String)
    (h : hasBone bs n = true) :
    parentOf (setBoneParentFirst bs n p) n = some (some p) := by
  induction bs with
  | nil => cases h
  | cons b t ih =>
    rw [setBoneParentFirst]
    cases hq : (b.name == n)
    · simp only [hq, Bool.false_eq_true, if_false]
      rw [parentOf, List.find?_cons_of_neg _ (by simp [hq])]
      rw [hasBone, List.any_cons, hq] at h
      simp only [Bool.false_or] at h
      exact ih h
    · simp only [hq, if_true]
      rw [parentOf, List.find?_cons_of_pos _ (by exact hq)]
      rfl

theorem weaponReparent_names (bs : List EBone) :
    (weaponReparent bs).map EBone.name = bs.map EBone.name := by
  rw [weaponReparent]
  split_ifs with h1 h2
  · exact setBoneParentFirst_names bs "j_gun" "tag_weapon"
  · exact setBoneParentFirst_names bs "tag_weapon" "tag_weapon_right"
  · rfl

theorem hasBone_weaponReparent (bs : List EBone) (m : String) :
    hasBone (weaponReparent bs) m = hasBone bs m := by
  rw [hasBone_eq_names, hasBone_eq_names, weaponReparent_names]

/-- Claim C7: after `join_armatures` completes on a merged bone list made
of the target's bones `B` followed by the join-renamed ".001" bones `S`
(each having its base name in `B`, names unique), no bone with the ".001"
suffix remains (the cleanup keeps exactly the base bones), every surviving
bone whose parent was a suffixed bone has been reparented onto the
same-named bone without the suffix, and the final special-case
reparenting applies: j_gun under tag_weapon when both exist, else
tag_weapon under tag_weapon_right when both exist. -/
theorem c7_join_cleanup (B S : List EBone)
    (hB : ∀ b ∈ B, endsWith001 b.name = false)
    (hS : ∀ s ∈ S, ∃ b ∈ B, s.name = b.name ++ suffix001)
    (hN : ((B ++ S).map EBone.name).Nodup) :
    (∀ x ∈ joinArmaturesBones (B ++ S), endsWith001 x.name = false) ∧
    ((mergeLoop2 (mergeLoop1 (B ++ S) 0) 0).map EBone.name = B.map EBone.name) ∧
    (∀ c ∈ B, ∀ b ∈ B, c.parent = some (b.name ++ suffix001) →
      hasBone S (b.name ++ suffix001) = true →
      ∃ x ∈ mergeLoop2 (mergeLoop1 (B ++ S) 0) 0,
        x.name = c.name ∧ x.parent = some b.name) ∧
    (hasBone (joinArmaturesBones (B ++ S)) "j_gun" = true →
      hasBone (joinArmaturesBones (B ++ S)) "tag_weapon" = true →
      parentOf (joinArmaturesBones (B ++ S)) "j_gun" = some (some "tag_weapon")) ∧
    ((¬ (hasBone (mergeLoop2 (mergeLoop1 (B ++ S) 0) 0) "j_gun" = true ∧
        hasBone (mergeLoop2 (mergeLoop1 (B ++ S) 0) 0) "tag_weapon" = true)) →
      hasBone (joinArmaturesBones (B ++ S)) "tag_weapon" = true →
      hasBone (joinArmaturesBones (B ++ S)) "tag_weapon_right" = true →
      parentOf (joinArmaturesBones (B ++ S)) "tag_weapon"
        = some (some "tag_weapon_right")) := by
  have hM := mergeLoop1_closedForm B S hB hS hN
  have hMnames : (B.map (fixParent B S)).map EBone.name = B.map EBone.name := by
    rw [List.map_map]
    exact List.map_congr_left (fun c _ => fixParent_name B S c)
  have hMno : ∀ x ∈ B.map (fixParent B S), endsWith001 x.name = false := by
    intro x hx
    obtain ⟨y, hy, hyx⟩ := List.mem_map.1 hx
    rw [← hyx, fixParent_name]
    exact hB y hy
  have hL2 : mergeLoop2 (mergeLoop1 (B ++ S) 0) 0 = B.map (fixParent B S) := by
    rw [hM]
    exact mergeLoop2_id _ hMno (B.map (fixParent B S)).length 0 (by omega)
  have hrdef : joinArmaturesBones (B ++ S)
      = weaponReparent (B.map (fixParent B S)) := by
    rw [joinArmaturesBones, hL2]
  have hrnames : (joinArmaturesBones (B ++ S)).map EBone.name
      = B.map EBone.name := by
    rw [hrdef, weaponReparent_names, hMnames]
  refine ⟨?_, ?_, ?_, ?_, ?_⟩
  · intro x hx
    have : x.name ∈ (joinArmaturesBones (B ++ S)).map EBone.name :=
      List.mem_map_of_mem _ hx
    rw [hrnames] at this
    obtain ⟨y, hy, hyx⟩ := List.mem_map.1 this
    rw [← hyx]
    exact hB y hy
  · rw [hL2]
    exact hMnames
  · intro c hc b hb hcp hSb
    rw [hL2]
    refine ⟨fixParent B S c, List.mem_map_of_mem _ hc, fixParent_name B S c, ?_⟩
    rw [fixParent, hcp]
    simp only
    rw [if_pos hSb]
    have hbp : ((b.name ++ suffix001) == (b.name ++ suffix001)) = true := by
      rw [beq_iff_eq]
    obtain ⟨b2, hfind⟩ : ∃ b2, B.find?
        (fun x => (x.name ++ suffix001) == (b.name ++ suffix001)) = some b2 :=
      Option.isSome_iff_exists.1 (List.find?_isSome.2 ⟨b, hb, hbp⟩)
    rw [hfind]
    have hb2p := List.find?_some hfind
    rw [beq_iff_eq] at hb2p
    have hbb : b2.name = b.name := string_append_right_cancel _ hb2p
    show some b2.name = some b.name
    rw [hbb]
  · intro h1 h2
    rw [hrdef, hasBone_weaponReparent] at h1 h2
    rw [hrdef, weaponReparent, if_pos (by rw [h1, h2]; rfl)]
    exact parentOf_setBoneParentFirst _ _ _ h1
  · intro hneg h2 h3
    rw [hrdef, hasBone_weaponReparent] at h2 h3
    rw [hL2] at hneg
    have hcond : (hasBone (B.map (fixParent B S)) "j_gun" &&
        hasBone (B.map (fixParent B S)) "tag_weapon") = false := by
      cases hj : hasBone (B.map (fixParent B S)) "j_gun"
      · rfl
      · cases ht : hasBone (B.map (fixParent B S)) "tag_weapon"
        · rfl
        · exact absurd ⟨hj, ht⟩ hneg
    rw [hrdef, weaponReparent]
    rw [if_neg (by rw [hcond]; simp)]
    rw [if_pos (by rw [h2, h3]; rfl)]
    exact parentOf_setBoneParentFirst _ _ _ h2

/-- Claim C7 witness: a weapon skeleton whose j_gun bone pointed at the
renamed "tag_weapon.001" ends up parented to the base "tag_weapon". -/
theorem c7_join_cleanup_witness :
    ∃ x ∈ mergeLoop2 (mergeLoop1
      ([EBone.mk "tag_weapon" none,
        EBone.mk "j_gun" (some ("tag_weapon" ++ suffix001))] ++
       [EBone.mk ("tag_weapon" ++ suffix001) (some "tag_weapon")]) 0) 0,
      x.name = "j_gun" ∧ x.parent = some "tag_weapon" :=
  (c7_join_cleanup
    [EBone.mk "tag_weapon" none,
      EBone.mk "j_gun" (some ("tag_weapon" ++ suffix001))]
    [EBone.mk ("tag_weapon" ++ suffix001) (some "tag_weapon")]
    (by decide) (by decide) (by decide)).2.2.1
    (EBone.mk "j_gun" (some ("tag_weapon" ++ suffix001))) (by decide)
    (EBone.mk "tag_weapon" none) (by decide) rfl (by decide)

end PvBlenderCod

namespace PvBlenderCod

/-- Claim C5 witness: evaluation on the four-vertex sample sub-mesh. -/
theorem c5_uv_flip_witness :
    (loadSubMesh true false 1 smSmall 1).final.loops =
      (loadSubMesh true false 1 smSmall 1).final.usedFaces.flatMap
        (fun g => (cornersOf g).map (loopOfCorner false)) :=
  (c5_uv_flip true false 1 smSmall 1).1

end PvBlenderCod
